import Mathlib

/-!
Verification of the nanopub repository's core specification.

The repository slice under verification contains the CLI (`nanopub/__main__.py`)
and the test suite; the core document model (canonicalization, content-address
derivation, signing, validation) is described by the specification and modelled
here faithfully from the spec's words, as indicated by each definition's
doc comment.
-/

namespace Nanopub

/-- A term of a statement: an IRI, a literal value, or a locally scoped blank
identifier (spec section 3: "any position may be an IRI, a literal value, or a
locally-scoped blank identifier"). -/
inductive Term : Type
  | iri (s : String)
  | lit (s : String)
  | bnode (s : String)
deriving DecidableEq

/-- Injective key used to give `Term` a linear order for canonical sorting
(keyed on the underlying character lists, whose lexicographic order evaluates
by kernel reduction). -/
def termKey : Term → ℕ ×ₗ List Char
  | .iri s => toLex (0, s.data)
  | .lit s => toLex (1, s.data)
  | .bnode s => toLex (2, s.data)

theorem termKey_injective : Function.Injective termKey := by
  intro a b h
  cases a <;> cases b <;> simp_all [termKey, String.ext_iff]

instance : LinearOrder Term := LinearOrder.lift' termKey termKey_injective

/-- A statement: a (subject, predicate, object) triple (spec section 3). -/
structure Stmt where
  s : Term
  p : Term
  o : Term
deriving DecidableEq

/-- Injective key giving statements a linear order for canonical sorting. -/
def stmtKey (st : Stmt) : Term ×ₗ (Term ×ₗ Term) := toLex (st.s, toLex (st.p, st.o))

theorem stmtKey_injective : Function.Injective stmtKey := by
  intro a b h
  cases a; cases b
  simp_all [stmtKey]

instance : LinearOrder Stmt := LinearOrder.lift' stmtKey stmtKey_injective

/-- A statement tagged with the index of the part that owns it
(0 = head, 1 = assertion, 2 = provenance, 3 = publication-info);
spec section 4.1: "Each statement is serialized as a flat line tagging its
owning part, subject, predicate, object". -/
structure TStmt where
  tag : ℕ
  st : Stmt
deriving DecidableEq

/-- Injective key giving tagged statements a linear order. -/
def tstmtKey (t : TStmt) : ℕ ×ₗ Stmt := toLex (t.tag, t.st)

theorem tstmtKey_injective : Function.Injective tstmtKey := by
  intro a b h
  cases a; cases b
  simp_all [tstmtKey]

instance : LinearOrder TStmt := LinearOrder.lift' tstmtKey tstmtKey_injective

/-- Sorting invariance of insertion sort under permutation of the input. -/
theorem insertionSort_perm_eq {α : Type*} (r : α → α → Prop) [DecidableRel r]
    [IsTotal α r] [IsTrans α r] [IsAntisymm α r] {l1 l2 : List α}
    (h : List.Perm l1 l2) :
    List.insertionSort r l1 = List.insertionSort r l2 :=
  List.eq_of_perm_of_sorted
    ((List.perm_insertionSort _ l1).trans (h.trans (List.perm_insertionSort _ l2).symm))
    (List.sorted_insertionSort _ l1) (List.sorted_insertionSort _ l2)

/-- The sorted list of a finite set's elements (insertion sort, so that the
definition evaluates by kernel reduction on concrete inputs). -/
def sortR {α : Type*} (r : α → α → Prop) [DecidableRel r]
    [IsTotal α r] [IsTrans α r] [IsAntisymm α r] (s : Finset α) : List α :=
  Quot.liftOn s.val (fun l => List.insertionSort r l)
    fun _ _ h => insertionSort_perm_eq r h

theorem sortR_coe {α : Type*} (r : α → α → Prop) [DecidableRel r]
    [IsTotal α r] [IsTrans α r] [IsAntisymm α r] (s : Finset α) :
    (↑(sortR r s) : Multiset α) = s.val := by
  have key : ∀ m : Multiset α,
      (↑(Quot.liftOn m (fun l => List.insertionSort r l)
        fun _ _ h => insertionSort_perm_eq r h) : Multiset α) = m := fun m =>
    Quot.inductionOn m fun l => Multiset.coe_eq_coe.mpr (List.perm_insertionSort _ l)
  exact key s.val

theorem mem_sortR {α : Type*} {r : α → α → Prop} [DecidableRel r]
    [IsTotal α r] [IsTrans α r] [IsAntisymm α r] {s : Finset α} {a : α} :
    a ∈ sortR r s ↔ a ∈ s := by
  rw [← Multiset.mem_coe, sortR_coe]
  exact Iff.rfl

theorem sortR_perm_toList {α : Type*} (r : α → α → Prop) [DecidableRel r]
    [IsTotal α r] [IsTrans α r] [IsAntisymm α r] (s : Finset α) :
    List.Perm (sortR r s) s.toList :=
  Multiset.coe_eq_coe.mp (by rw [sortR_coe, Finset.coe_toList])

/-- The sorted list of a linearly ordered finite set. -/
def sortL {α : Type*} [LinearOrder α] (s : Finset α) : List α := sortR (· ≤ ·) s

theorem mem_sortL {α : Type*} [LinearOrder α] {s : Finset α} {a : α} :
    a ∈ sortL s ↔ a ∈ s := mem_sortR

theorem sortL_perm_toList {α : Type*} [LinearOrder α] (s : Finset α) :
    List.Perm (sortL s) s.toList := sortR_perm_toList _ s

/-- Character-data comparison of strings, used to order blank identifiers so
that sorting evaluates by kernel reduction. -/
def dataLe (a b : String) : Prop := a.data ≤ b.data

instance : DecidableRel dataLe := fun a b => inferInstanceAs (Decidable (a.data ≤ b.data))

instance : IsTotal String dataLe := ⟨fun a b => le_total a.data b.data⟩

instance : IsTrans String dataLe := ⟨fun _ _ _ h1 h2 => le_trans h1 h2⟩

instance : IsAntisymm String dataLe := ⟨fun _ _ h1 h2 => String.ext (le_antisymm h1 h2)⟩

/-- Modelled from the spec: a document is "exactly four named parts — head,
assertion, provenance, publication-info — each a set of statements ... where a
statement set has no meaningful order and no duplicates" (spec section 3).
The core module holding this data model is not under src/. -/
structure Doc where
  head : Finset Stmt
  assertion : Finset Stmt
  provenance : Finset Stmt
  pubinfo : Finset Stmt
deriving DecidableEq

/-- Apply a term transformation to every position of a statement. -/
def mapT (f : Term → Term) (st : Stmt) : Stmt := ⟨f st.s, f st.p, f st.o⟩

/-- Apply a term transformation to every position of every part. -/
def mapDoc (f : Term → Term) (d : Doc) : Doc :=
  ⟨d.head.image (mapT f), d.assertion.image (mapT f),
   d.provenance.image (mapT f), d.pubinfo.image (mapT f)⟩

/-- Rename blank identifiers by `f`, leaving IRIs and literals unchanged. -/
def relabelTerm (f : String → String) : Term → Term
  | .bnode b => .bnode (f b)
  | t => t

/-- Rename every blank identifier of the document by `f`. -/
def relabelDoc (f : String → String) (d : Doc) : Doc := mapDoc (relabelTerm f) d

/-- All statements of the document, over its four parts. -/
def docStmts (d : Doc) : Finset Stmt :=
  d.head ∪ d.assertion ∪ d.provenance ∪ d.pubinfo

/-- Blank identifiers of a term. -/
def termBnodes : Term → Finset String
  | .bnode b => {b}
  | _ => ∅

/-- Blank identifiers of a statement. -/
def stmtBnodes (st : Stmt) : Finset String :=
  termBnodes st.s ∪ termBnodes st.p ∪ termBnodes st.o

/-- The set of blank identifiers occurring anywhere in the document. -/
def bnodeSet (d : Doc) : Finset String := (docStmts d).biUnion stmtBnodes

/-- The statements of the document tagged by their owning part
(spec section 4.1). -/
def taggedSet (d : Doc) : Finset TStmt :=
  d.head.image (fun s => ⟨0, s⟩) ∪ d.assertion.image (fun s => ⟨1, s⟩) ∪
  d.provenance.image (fun s => ⟨2, s⟩) ∪ d.pubinfo.image (fun s => ⟨3, s⟩)

/-- Modelled from the spec: "the full set of lines is then sorted
lexicographically, producing an order-independent, deduplicated byte sequence"
(spec section 4.1).  The canonical serialization of a document, as the sorted
list of part-tagged statements. -/
def sortedT (d : Doc) : List TStmt := sortL (taggedSet d)

/-- The i-th stable position label used for canonical blank-identifier
renaming (spec section 4.1: blank identifiers "are renamed to stable position
labels").  Injective by construction (the label's length determines `i`). -/
def canonLabel (i : ℕ) : String := ⟨List.replicate (i + 1) 'b'⟩

theorem canonLabel_injective : Function.Injective canonLabel := by
  intro a b h
  have := congrArg (fun s => s.data.length) h
  simpa [canonLabel] using this

/-- The renaming induced by an enumeration `p` of the document's blank
identifiers: the identifier at position `i` of `p` is renamed to the i-th
stable position label. -/
def assign (p : List String) (s : String) : String := canonLabel (p.indexOf s)

/-- The blank identifiers of the document, in a canonical (sorted) order. -/
def bnodeList (d : Doc) : List String := sortR dataLe (bnodeSet d)

/-- Modelled from the spec: blank identifiers are renamed "using a
deterministic, content-independent traversal order" whose exact convention the
spec leaves open (section 9, open question); modelled as the deterministic
choice, over all enumerations of the document's blank identifiers, of the
lexicographically least sorted serialization.  This realizes the normative
requirement that "identical statement sets (up to blank-node correspondence)
always yield identical bytes" (spec section 4.1). -/
def cands (d : Doc) : Finset (List TStmt) :=
  ((bnodeList d).permutations'.map (fun p => sortedT (relabelDoc (assign p) d))).toFinset

theorem cands_nonempty (d : Doc) : (cands d).Nonempty := by
  refine ⟨sortedT (relabelDoc (assign (bnodeList d)) d), ?_⟩
  exact List.mem_toFinset.mpr
    (List.mem_map_of_mem _ (List.mem_permutations'.mpr (List.Perm.refl _)))

/-- The canonical form of a document (spec section 4.1): the deterministic,
order-independent serialization from which the content code is derived. -/
def canonical (d : Doc) : List TStmt := (cands d).min' (cands_nonempty d)

theorem relabelTerm_comp (f g : String → String) (t : Term) :
    relabelTerm g (relabelTerm f t) = relabelTerm (g ∘ f) t := by
  cases t <;> rfl

theorem mapT_comp (f g : Term → Term) (st : Stmt) :
    mapT g (mapT f st) = mapT (g ∘ f) st := rfl

theorem mapDoc_comp (f g : Term → Term) (d : Doc) :
    mapDoc g (mapDoc f d) = mapDoc (g ∘ f) d := by
  simp only [mapDoc, Finset.image_image]
  rfl

theorem relabelTerm_comp_eq (f g : String → String) :
    relabelTerm g ∘ relabelTerm f = relabelTerm (g ∘ f) :=
  funext fun t => relabelTerm_comp f g t

theorem relabelDoc_comp (f g : String → String) (d : Doc) :
    relabelDoc g (relabelDoc f d) = relabelDoc (g ∘ f) d := by
  simp only [relabelDoc, mapDoc_comp, relabelTerm_comp_eq]

theorem stmtBnodes_sub (d : Doc) {st : Stmt} (hst : st ∈ docStmts d) :
    stmtBnodes st ⊆ bnodeSet d := fun b hb => Finset.mem_biUnion.mpr ⟨st, hst, hb⟩

theorem relabelTerm_congr {f g : String → String} {t : Term}
    (h : ∀ b ∈ termBnodes t, f b = g b) : relabelTerm f t = relabelTerm g t := by
  cases t with
  | bnode b => simp [relabelTerm, h b (by simp [termBnodes])]
  | iri s => rfl
  | lit s => rfl

theorem mapT_relabel_congr {f g : String → String} {st : Stmt}
    (h : ∀ b ∈ stmtBnodes st, f b = g b) :
    mapT (relabelTerm f) st = mapT (relabelTerm g) st := by
  cases st with
  | mk a b c =>
    simp only [mapT, Stmt.mk.injEq]
    refine ⟨relabelTerm_congr ?_, relabelTerm_congr ?_, relabelTerm_congr ?_⟩ <;>
      intro x hx <;> exact h x (by simp [stmtBnodes, hx])

theorem part_sub_docStmts (d : Doc) :
    d.head ⊆ docStmts d ∧ d.assertion ⊆ docStmts d ∧
    d.provenance ⊆ docStmts d ∧ d.pubinfo ⊆ docStmts d := by
  refine ⟨?_, ?_, ?_, ?_⟩ <;> intro x hx <;> simp [docStmts, hx]

theorem relabelDoc_congr {f g : String → String} {d : Doc}
    (h : ∀ b ∈ bnodeSet d, f b = g b) : relabelDoc f d = relabelDoc g d := by
  obtain ⟨h1, h2, h3, h4⟩ := part_sub_docStmts d
  simp only [relabelDoc, mapDoc, Doc.mk.injEq]
  refine ⟨?_, ?_, ?_, ?_⟩ <;>
    refine Finset.image_congr fun st hst => mapT_relabel_congr fun b hb => ?_
  · exact h b (stmtBnodes_sub d (h1 hst) hb)
  · exact h b (stmtBnodes_sub d (h2 hst) hb)
  · exact h b (stmtBnodes_sub d (h3 hst) hb)
  · exact h b (stmtBnodes_sub d (h4 hst) hb)

theorem relabelDoc_id (d : Doc) : relabelDoc id d = d := by
  have ht : relabelTerm id = id := by
    funext t; cases t <;> rfl
  have hm : mapT id = id := by
    funext st; cases st; rfl
  simp only [relabelDoc, mapDoc, ht, hm, Finset.image_id]

theorem relabelDoc_id_on {f : String → String} {d : Doc}
    (h : ∀ b ∈ bnodeSet d, f b = b) : relabelDoc f d = d := by
  have := relabelDoc_congr (g := id) (d := d) h
  rwa [relabelDoc_id] at this

theorem termBnodes_relabel (f : String → String) (t : Term) :
    termBnodes (relabelTerm f t) = (termBnodes t).image f := by
  cases t <;> simp [relabelTerm, termBnodes]

theorem stmtBnodes_relabel (f : String → String) (st : Stmt) :
    stmtBnodes (mapT (relabelTerm f) st) = (stmtBnodes st).image f := by
  cases st with
  | mk a b c => simp [stmtBnodes, mapT, termBnodes_relabel, Finset.image_union]

theorem docStmts_relabel (f : String → String) (d : Doc) :
    docStmts (relabelDoc f d) = (docStmts d).image (mapT (relabelTerm f)) := by
  simp [docStmts, relabelDoc, mapDoc, Finset.image_union]

theorem bnodeSet_relabel (f : String → String) (d : Doc) :
    bnodeSet (relabelDoc f d) = (bnodeSet d).image f := by
  simp only [bnodeSet, docStmts_relabel, Finset.image_biUnion, stmtBnodes_relabel,
    Finset.biUnion_image]

theorem indexOf_map_of {l : List String} {f : String → String} {x : String}
    (hinj : ∀ a ∈ l, f a = f x → a = x) :
    (l.map f).indexOf (f x) = l.indexOf x := by
  induction l with
  | nil => rfl
  | cons a t ih =>
    by_cases hax : a = x
    · subst hax
      simp [List.indexOf_cons_self]
    · have hfa : f a ≠ f x := fun hc => hax (hinj a (by simp) hc)
      rw [List.map_cons, List.indexOf_cons_ne _ hfa, List.indexOf_cons_ne _ hax,
        ih fun b hb hc => hinj b (by simp [hb]) hc]

/-- Sorting an injectively-imaged set is, up to permutation, mapping the sorted
list of the original set. -/
theorem sort_image_perm (S : Finset String) (σ : String → String)
    (h : Set.InjOn σ ↑S) :
    List.Perm ((sortR dataLe S).map σ) (sortR dataLe (S.image σ)) := by
  have h1 : List.Perm (sortR dataLe S) S.toList := sortR_perm_toList _ S
  have h2 : List.Perm (sortR dataLe (S.image σ)) ((S.image σ).toList) :=
    sortR_perm_toList _ _
  refine ((h1.map σ).trans ?_).trans h2.symm
  rw [← Multiset.coe_eq_coe, ← Multiset.map_coe, Finset.coe_toList, Finset.coe_toList,
    Finset.image_val]
  have : (Multiset.map σ S.val).Nodup :=
    Multiset.Nodup.map_on (fun x hx y hy => h (by simpa using hx) (by simpa using hy)) S.nodup
  rw [Multiset.dedup_eq_self.mpr this]

/-- Core transfer step: every canonicalization candidate of `d` is a candidate
of the blank-renamed document, for any renaming injective on the blank
identifiers of `d`. -/
theorem cands_sub_relabel (d : Doc) (σ : String → String)
    (h : Set.InjOn σ ↑(bnodeSet d)) : cands d ⊆ cands (relabelDoc σ d) := by
  intro X hX
  simp only [cands, List.mem_toFinset, List.mem_map] at hX ⊢
  obtain ⟨p, hp, hval⟩ := hX
  have hpperm : List.Perm p (bnodeList d) := List.mem_permutations'.mp hp
  refine ⟨p.map σ, ?_, ?_⟩
  · refine List.mem_permutations'.mpr ?_
    have := (hpperm.map σ).trans (sort_image_perm (bnodeSet d) σ h)
    simpa [bnodeList, bnodeSet_relabel] using this
  · rw [relabelDoc_comp]
    have hagree : relabelDoc (assign (p.map σ) ∘ σ) d = relabelDoc (assign p) d := by
      refine relabelDoc_congr fun b hb => ?_
      have hbmem : b ∈ p := hpperm.mem_iff.mpr (by simp [bnodeList, mem_sortR, hb])
      have : (p.map σ).indexOf (σ b) = p.indexOf b := by
        refine indexOf_map_of fun a ha hfa => ?_
        have haS : a ∈ bnodeSet d := by
          have := hpperm.mem_iff.mp ha
          simpa [bnodeList, mem_sortR] using this
        exact h haS hb hfa
      simp [assign, this]
    rw [hagree, hval]

/-- Canonicalization candidates are invariant under any blank-identifier
renaming that is injective on the document's blank identifiers. -/
theorem cands_relabel (d : Doc) (σ : String → String)
    (h : Set.InjOn σ ↑(bnodeSet d)) : cands (relabelDoc σ d) = cands d := by
  classical
  refine le_antisymm ?_ (cands_sub_relabel d σ h)
  set ι := Function.invFunOn σ ↑(bnodeSet d) with hι
  have hback : ∀ b ∈ bnodeSet d, ι (σ b) = b := fun b hb =>
    h.leftInvOn_invFunOn (by simpa using hb)
  have hrt : relabelDoc ι (relabelDoc σ d) = d := by
    rw [relabelDoc_comp]
    exact relabelDoc_id_on fun b hb => hback b hb
  have hιinj : Set.InjOn ι ↑(bnodeSet (relabelDoc σ d)) := by
    rw [bnodeSet_relabel]
    intro x hx y hy hxy
    simp only [Finset.coe_image, Set.mem_image, Finset.mem_coe] at hx hy
    obtain ⟨a, ha, rfl⟩ := hx
    obtain ⟨b, hb, rfl⟩ := hy
    rw [hback a ha, hback b hb] at hxy
    rw [hxy]
  have := cands_sub_relabel (relabelDoc σ d) ι hιinj
  rwa [hrt] at this

theorem min'_congr_of_eq {α : Type*} [LinearOrder α] {s t : Finset α}
    (hs : s.Nonempty) (ht : t.Nonempty) (h : s = t) : s.min' hs = t.min' ht := by
  subst h; rfl

/-- The canonical form is invariant under blank-identifier renamings injective
on the document's blank identifiers. -/
theorem canonical_relabel (d : Doc) (σ : String → String)
    (h : Set.InjOn σ ↑(bnodeSet d)) : canonical (relabelDoc σ d) = canonical d :=
  min'_congr_of_eq _ _ (cands_relabel d σ h)

/-! ## Placeholder substitution and identifier finalization (spec sections 4.2, 4.3) -/

/-- First-match association-list substitution on strings. -/
def substStr : List (String × String) → String → String
  | [], s => s
  | q :: t, s => if q.1 = s then q.2 else substStr t s

/-- Substitution applied to IRI positions; literals and blank identifiers are
untouched (spec section 4.3: every occurrence of the placeholder in any
position is an internal reference, i.e. an IRI). -/
def substTerm (al : List (String × String)) : Term → Term
  | .iri s => .iri (substStr al s)
  | t => t

/-- Substitution applied to every position of every part. -/
def substDoc (al : List (String × String)) (d : Doc) : Doc :=
  mapDoc (substTerm al) d

theorem substStr_mem (al : List (String × String)) (s : String) :
    substStr al s = s ∨ substStr al s ∈ al.map Prod.snd := by
  induction al with
  | nil => exact Or.inl rfl
  | cons q t ih =>
    by_cases hq : q.1 = s
    · right
      simp [substStr, hq]
    · rcases ih with h | h
      · left
        simp [substStr, hq, h]
      · right
        simp only [substStr, hq, if_false, List.map_cons, List.mem_cons]
        exact Or.inr h

/-- Applying a substitution and then its swap recovers the original string,
provided the substitution's values are distinct and the string is not itself
one of the values. -/
theorem substStr_swap (al : List (String × String))
    (hnd : (al.map Prod.snd).Nodup) {s : String} (hs : s ∉ al.map Prod.snd) :
    substStr (al.map Prod.swap) (substStr al s) = s := by
  induction al with
  | nil => rfl
  | cons q t ih =>
    simp only [List.map_cons, List.nodup_cons, List.mem_cons] at hnd hs
    obtain ⟨hv, hndt⟩ := hnd
    have hs1 : s ≠ q.2 := fun h => hs (Or.inl h)
    have hs2 : s ∉ t.map Prod.snd := fun h => hs (Or.inr h)
    by_cases hq : q.1 = s
    · simp [substStr, hq, Prod.swap]
    · simp only [substStr, hq, if_false, List.map_cons]
      have hhead : q.2 ≠ substStr t s := by
        rcases substStr_mem t s with h | h
        · rw [h]
          exact fun hc => hs1 hc.symm
        · exact fun hc => hv (hc ▸ h)
      rw [show Prod.swap q = (q.2, q.1) from rfl]
      simp only [substStr, hhead, if_false]
      exact ih hndt hs2

/-- IRIs of a term. -/
def termIris : Term → Finset String
  | .iri s => {s}
  | _ => ∅

/-- IRIs of a statement. -/
def stmtIris (st : Stmt) : Finset String :=
  termIris st.s ∪ termIris st.p ∪ termIris st.o

/-- All IRIs occurring in any position of any part of the document. -/
def docIris (d : Doc) : Finset String := (docStmts d).biUnion stmtIris

theorem substTerm_swap (al : List (String × String))
    (hnd : (al.map Prod.snd).Nodup) {t : Term}
    (ht : ∀ s ∈ termIris t, s ∉ al.map Prod.snd) :
    substTerm (al.map Prod.swap) (substTerm al t) = t := by
  cases t with
  | iri s =>
    simp only [substTerm, Term.iri.injEq]
    exact substStr_swap al hnd (ht s (by simp [termIris]))
  | lit s => rfl
  | bnode s => rfl

theorem image_comp_self {f g : Term → Term} {s : Finset Stmt}
    (h : ∀ st ∈ s, mapT g (mapT f st) = st) :
    Finset.image (mapT g ∘ mapT f) s = s := by
  have heq : Finset.image (mapT g ∘ mapT f) s = Finset.image id s :=
    Finset.image_congr fun st hst => h st hst
  rwa [Finset.image_id] at heq

theorem mapDoc_roundtrip {f g : Term → Term} {d : Doc}
    (h : ∀ st ∈ docStmts d, mapT g (mapT f st) = st) : mapDoc g (mapDoc f d) = d := by
  obtain ⟨h1, h2, h3, h4⟩ := part_sub_docStmts d
  cases d with
  | mk dh da dp di =>
    simp only [mapDoc, Finset.image_image, Doc.mk.injEq]
    exact ⟨image_comp_self fun st hst => h st (h1 hst),
      image_comp_self fun st hst => h st (h2 hst),
      image_comp_self fun st hst => h st (h3 hst),
      image_comp_self fun st hst => h st (h4 hst)⟩

theorem substDoc_swap (al : List (String × String))
    (hnd : (al.map Prod.snd).Nodup) {d : Doc}
    (hd : ∀ s ∈ docIris d, s ∉ al.map Prod.snd) :
    substDoc (al.map Prod.swap) (substDoc al d) = d := by
  refine mapDoc_roundtrip fun st hst => ?_
  cases st with
  | mk a b c =>
    simp only [mapT, Stmt.mk.injEq]
    refine ⟨?_, ?_, ?_⟩ <;>
      refine substTerm_swap al hnd fun s hs => hd s ?_
    · exact Finset.mem_biUnion.mpr ⟨_, hst, by simp [stmtIris, hs]⟩
    · exact Finset.mem_biUnion.mpr ⟨_, hst, by simp [stmtIris, hs]⟩
    · exact Finset.mem_biUnion.mpr ⟨_, hst, by simp [stmtIris, hs]⟩

/-! ## The content-address identifier pipeline (spec sections 4.2, 4.3) -/

/-- Modelled from the spec: the "fixed, reserved sentinel IRI used in place of
the document's own (not-yet-known) identifier during canonicalization"
(spec section 3).  The concrete spelling is immaterial to the claims. -/
def placeholder : String := "urn:np:ARTIFACT-PLACEHOLDER"

/-- The identifier base, visible in the repository's reference vectors. -/
def npBase : String := "http://purl.org/np/"

/-- The algorithm/version tag of the content code (spec section 4.2), visible
in the repository's reference vectors. -/
def typeTag : String := "RA"

/-- Modelled from the spec: the "fixed suffixes" appended to the identifier to
derive the four canonical sub-resource references (spec section 4.3), the
signature sub-resource, and the empty suffix for the identifier itself. -/
def suffixes : List String := ["", "#head", "#assertion", "#provenance", "#pubinfo", "#sig"]

/-- The substitution replacing each `x`-based reference (the document
identifier and its four sub-resource references) by its `y`-based form. -/
def substPairs (x y : String) : List (String × String) :=
  suffixes.map fun suf => (x ++ suf, y ++ suf)

/-- A content-address ("trusty") identifier: base + type tag + content code
(spec section 3). -/
def trustyUri (code : String) : String := npBase ++ typeTag ++ code

/-- The identifier derived for a document: base + tag + encoded canonical form
(spec sections 4.1 + 4.2 composed). -/
def makeId (encode : List TStmt → String) (d : Doc) : String :=
  trustyUri (encode (canonical d))

/-- Modelled from the spec: `finalize(document, placeholder, identifier)`
replaces every placeholder-based reference by its identifier-based form
(spec section 4.3). -/
def finalize (id : String) (d : Doc) : Doc := substDoc (substPairs placeholder id) d

/-- The validator's inverse substitution: identifier-based references back to
placeholder-based ones (spec section 4.5, rule 3). -/
def unfinalize (id : String) (d : Doc) : Doc := substDoc (substPairs id placeholder) d

theorem str_append_left_cancel {y a b : String} (h : y ++ a = y ++ b) : a = b := by
  have hd := congrArg String.data h
  simp only [String.data_append] at hd
  exact String.ext (List.append_cancel_left hd)

theorem substPairs_snd (x y : String) :
    (substPairs x y).map Prod.snd = suffixes.map fun suf => y ++ suf := by
  simp [substPairs, List.map_map, Function.comp]

theorem substPairs_snd_nodup (x y : String) :
    ((substPairs x y).map Prod.snd).Nodup := by
  rw [substPairs_snd]
  refine List.Nodup.map (fun a b hab => str_append_left_cancel hab) ?_
  decide

theorem substPairs_swap (x y : String) :
    (substPairs x y).map Prod.swap = substPairs y x := by
  simp [substPairs, List.map_map, Function.comp, Prod.swap]

/-- Round trip of finalization: substituting the identifier back to the
placeholder recovers the pre-finalization document, provided no IRI of the
document already carries an identifier-based spelling. -/
theorem unfinalize_finalize (id : String) (d : Doc)
    (hfresh : ∀ s ∈ docIris d, s ∉ (substPairs placeholder id).map Prod.snd) :
    unfinalize id (finalize id d) = d := by
  have := substDoc_swap (substPairs placeholder id) (substPairs_snd_nodup _ _) hfresh
  rwa [substPairs_swap] at this

/-! ## Canonicalization separates documents up to blank-identifier renaming -/

theorem mem_taggedSet_tag (d : Doc) (i : ℕ) (st : Stmt) :
    (⟨i, st⟩ : TStmt) ∈ taggedSet d ↔
      (i = 0 ∧ st ∈ d.head) ∨ (i = 1 ∧ st ∈ d.assertion) ∨
      (i = 2 ∧ st ∈ d.provenance) ∨ (i = 3 ∧ st ∈ d.pubinfo) := by
  simp only [taggedSet, Finset.mem_union, Finset.mem_image, TStmt.mk.injEq]
  constructor
  · rintro (((⟨x, hx, hi, rfl⟩ | ⟨x, hx, hi, rfl⟩) | ⟨x, hx, hi, rfl⟩) | ⟨x, hx, hi, rfl⟩)
    · exact Or.inl ⟨hi.symm, hx⟩
    · exact Or.inr (Or.inl ⟨hi.symm, hx⟩)
    · exact Or.inr (Or.inr (Or.inl ⟨hi.symm, hx⟩))
    · exact Or.inr (Or.inr (Or.inr ⟨hi.symm, hx⟩))
  · rintro (⟨rfl, hx⟩ | ⟨rfl, hx⟩ | ⟨rfl, hx⟩ | ⟨rfl, hx⟩)
    · exact Or.inl (Or.inl (Or.inl ⟨st, hx, rfl, rfl⟩))
    · exact Or.inl (Or.inl (Or.inr ⟨st, hx, rfl, rfl⟩))
    · exact Or.inl (Or.inr ⟨st, hx, rfl, rfl⟩)
    · exact Or.inr ⟨st, hx, rfl, rfl⟩

theorem taggedSet_inj {d1 d2 : Doc} (h : taggedSet d1 = taggedSet d2) : d1 = d2 := by
  have hmem : ∀ (i : ℕ) (st : Stmt),
      (⟨i, st⟩ : TStmt) ∈ taggedSet d1 ↔ (⟨i, st⟩ : TStmt) ∈ taggedSet d2 :=
    fun i st => by rw [h]
  cases d1 with
  | mk h1 a1 p1 i1 =>
    cases d2 with
    | mk h2 a2 p2 i2 =>
      simp only [Doc.mk.injEq]
      refine ⟨?_, ?_, ?_, ?_⟩ <;> ext st
      · have := hmem 0 st
        simpa [mem_taggedSet_tag] using this
      · have := hmem 1 st
        simpa [mem_taggedSet_tag] using this
      · have := hmem 2 st
        simpa [mem_taggedSet_tag] using this
      · have := hmem 3 st
        simpa [mem_taggedSet_tag] using this

theorem sortedT_inj {d1 d2 : Doc} (h : sortedT d1 = sortedT d2) : taggedSet d1 = taggedSet d2 := by
  ext x
  have h1 : (x ∈ sortedT d1) = (x ∈ taggedSet d1) := propext mem_sortL
  have h2 : (x ∈ sortedT d2) = (x ∈ taggedSet d2) := propext mem_sortL
  rw [← h1, ← h2, h]

theorem mem_cands {d : Doc} {X : List TStmt} :
    X ∈ cands d ↔
      ∃ p, List.Perm p (bnodeList d) ∧ X = sortedT (relabelDoc (assign p) d) := by
  simp only [cands, List.mem_toFinset, List.mem_map]
  constructor
  · rintro ⟨p, hp, rfl⟩
    exact ⟨p, List.mem_permutations'.mp hp, rfl⟩
  · rintro ⟨p, hp, rfl⟩
    exact ⟨p, List.mem_permutations'.mpr hp, rfl⟩

theorem assign_injOn {d : Doc} {p : List String} (hp : List.Perm p (bnodeList d)) :
    Set.InjOn (assign p) ↑(bnodeSet d) := by
  intro b hb c hc hbc
  have hbp : b ∈ p := hp.mem_iff.mpr (by
    simpa [bnodeList, mem_sortR] using Finset.mem_coe.mp hb)
  have hcp : c ∈ p := hp.mem_iff.mpr (by
    simpa [bnodeList, mem_sortR] using Finset.mem_coe.mp hc)
  have hidx : p.indexOf b = p.indexOf c := canonLabel_injective hbc
  exact (List.indexOf_inj hbp hcp).mp hidx

/-- Completeness of canonicalization: equal canonical forms force the
documents to be equal up to an injective renaming of blank identifiers. -/
theorem canonical_eq_relabel {d1 d2 : Doc} (h : canonical d1 = canonical d2) :
    ∃ σ, Set.InjOn σ ↑(bnodeSet d1) ∧ relabelDoc σ d1 = d2 := by
  classical
  obtain ⟨p1, hp1, hX1⟩ := mem_cands.mp (Finset.min'_mem (cands d1) (cands_nonempty d1))
  obtain ⟨p2, hp2, hX2⟩ := mem_cands.mp (Finset.min'_mem (cands d2) (cands_nonempty d2))
  have hE : relabelDoc (assign p1) d1 = relabelDoc (assign p2) d2 :=
    taggedSet_inj (sortedT_inj (hX1.symm.trans (h.trans hX2)))
  have hinj1 := assign_injOn hp1
  have hinj2 := assign_injOn hp2
  have hback : ∀ b ∈ bnodeSet d2,
      Function.invFunOn (assign p2) ↑(bnodeSet d2) (assign p2 b) = b := fun b hb =>
    hinj2.leftInvOn_invFunOn (by simpa using hb)
  have himg : (bnodeSet d1).image (assign p1) = (bnodeSet d2).image (assign p2) := by
    rw [← bnodeSet_relabel, ← bnodeSet_relabel, hE]
  have hfwd : ∀ y ∈ (bnodeSet d2).image (assign p2),
      assign p2 (Function.invFunOn (assign p2) ↑(bnodeSet d2) y) = y := by
    intro y hy
    obtain ⟨x, hx, rfl⟩ := Finset.mem_image.mp hy
    exact Function.invFunOn_eq ⟨x, by simpa using hx, rfl⟩
  refine ⟨Function.invFunOn (assign p2) ↑(bnodeSet d2) ∘ assign p1, ?_, ?_⟩
  · intro b hb c hc hbc
    have hbimg : assign p1 b ∈ (bnodeSet d2).image (assign p2) :=
      himg ▸ Finset.mem_image_of_mem _ (Finset.mem_coe.mp hb)
    have hcimg : assign p1 c ∈ (bnodeSet d2).image (assign p2) :=
      himg ▸ Finset.mem_image_of_mem _ (Finset.mem_coe.mp hc)
    have : assign p1 b = assign p1 c := by
      rw [← hfwd _ hbimg, ← hfwd _ hcimg]
      simp only [Function.comp_apply] at hbc
      rw [hbc]
    exact hinj1 hb hc this
  · rw [← relabelDoc_comp, hE, relabelDoc_comp]
    exact relabelDoc_id_on fun b hb => hback b hb

/-- Soundness and completeness combined: two documents have the same canonical
form exactly when one is an injective blank-identifier renaming of the
other. -/
theorem canonical_eq_iff (d1 d2 : Doc) :
    canonical d1 = canonical d2 ↔
      ∃ σ, Set.InjOn σ ↑(bnodeSet d1) ∧ relabelDoc σ d1 = d2 := by
  constructor
  · exact canonical_eq_relabel
  · rintro ⟨σ, hσ, rfl⟩
    exact (canonical_relabel d1 σ hσ).symm

/-! ## Document construction, signing (spec section 4.4) and validation
(spec section 4.5) -/

/-- The linking predicate from the document resource to its assertion part. -/
def linkAssertion : Term := .iri "np:hasAssertion"

/-- The linking predicate from the document resource to its provenance part. -/
def linkProv : Term := .iri "np:hasProvenance"

/-- The linking predicate from the document resource to its
publication-info part. -/
def linkInfo : Term := .iri "np:hasPublicationInfo"

/-- The type predicate of the head's self-typing statement. -/
def prType : Term := .iri "rdf:type"

/-- The document type declared in the head part. -/
def npNanopub : Term := .iri "np:Nanopublication"

/-- The predicate carrying the embedded signature value (spec section 4.4). -/
def prHasSig : Term := .iri "npx:hasSignature"

/-- The predicate carrying the embedded public-key material. -/
def prHasPubKey : Term := .iri "npx:hasPublicKey"

/-- The predicate carrying the embedded algorithm tag. -/
def prHasAlg : Term := .iri "npx:hasAlgorithm"

/-- Modelled from the spec: the head part "must contain exactly the four
linking statements that declare the document resource's relationship to each
of the other three parts and its own type" (spec section 3), here with
`x`-based references (placeholder before finalization). -/
def headStmts (x : String) : Finset Stmt :=
  {⟨.iri x, prType, npNanopub⟩,
   ⟨.iri x, linkAssertion, .iri (x ++ "#assertion")⟩,
   ⟨.iri x, linkProv, .iri (x ++ "#provenance")⟩,
   ⟨.iri x, linkInfo, .iri (x ++ "#pubinfo")⟩}

/-- Build an in-memory document from caller-supplied assertion, provenance and
publication-info statement sets, with the standard placeholder-based head
(spec section 3, lifecycle). -/
def mkDoc (a p i : Finset Stmt) : Doc := ⟨headStmts placeholder, a, p, i⟩

/-- The three signature statements appended to publication-info: signature
value, public-key material, algorithm tag (spec section 4.4). -/
def sigStmts (x sv pk alg : String) : Finset Stmt :=
  {⟨.iri (x ++ "#sig"), prHasSig, .lit sv⟩,
   ⟨.iri (x ++ "#sig"), prHasPubKey, .lit pk⟩,
   ⟨.iri (x ++ "#sig"), prHasAlg, .lit alg⟩}

/-- Append the signature statements to publication-info. -/
def addSig (sv pk alg : String) (d : Doc) : Doc :=
  { d with pubinfo := d.pubinfo ∪ sigStmts placeholder sv pk alg }

/-- Modelled from the spec (section 4.4): compute the signature over the
canonical bytes of the document (pre-final identifier) under a deterministic
signing scheme `sigFn`, append the three signature statements to
publication-info, and re-run canonicalization, encoding and finalization to
obtain the final, signature-covering identifier.  Returns the signed document
and that identifier. -/
def signDoc (encode : List TStmt → String) (sigFn : List TStmt → String)
    (pk alg : String) (d : Doc) : Doc × String :=
  let sv := sigFn (canonical d)
  let d2 := addSig sv pk alg d
  let id := makeId encode d2
  (finalize id d2, id)

/-- The error taxonomy of signing (spec section 7): missing key material and
unreadable/malformed key material are distinct, typed, recoverable errors. -/
inductive SignErr : Type
  | keyMissing
  | keyInvalid
deriving DecidableEq

/-- Modelled from the spec (sections 4.4, 7): the signing entry point resolves
the caller-supplied key material; absence fails with the missing-key error and
unparseable/malformed material fails with the invalid-key error, otherwise the
document is signed with the parsed key.  `parse` stands for the external
key-material decoder and `scheme` for the deterministic signature scheme. -/
def signEntry {κ : Type} (encode : List TStmt → String) (parse : String → Option κ)
    (scheme : κ → List TStmt → String) (keyMat : Option String)
    (pk alg : String) (d : Doc) : Except SignErr (Doc × String) :=
  match keyMat with
  | none => .error .keyMissing
  | some m =>
    match parse m with
    | none => .error .keyInvalid
    | some k => .ok (signDoc encode (scheme k) pk alg d)

/-- The validation error taxonomy (spec sections 4.5 and 7): one distinct
variant per distinct reason string of `MalformedNanopubError`. -/
inductive VErr : Type
  | wrongPartCount
  | missingLink
  | emptyPart
  | hashMismatch
  | invalidSignature
deriving DecidableEq

/-- A parsed document as delivered by the external serialization layer
(spec section 6): the declared document identifier and the named graphs. -/
structure Raw : Type where
  uri : String
  graphs : List (String × Finset Stmt)
deriving DecidableEq

/-- Find the graph with the given name. -/
def findGraph (gs : List (String × Finset Stmt)) (n : String) : Option (Finset Stmt) :=
  (gs.find? fun gr => decide (gr.1 = n)).map Prod.snd

/-- The serialized named-graph form of a finalized document with identifier
`id`: the four parts named by the identifier-derived sub-resource references
(spec section 4.3). -/
def toRaw (id : String) (d : Doc) : Raw :=
  ⟨id, [(id ++ "#head", d.head), (id ++ "#assertion", d.assertion),
        (id ++ "#provenance", d.provenance), (id ++ "#pubinfo", d.pubinfo)]⟩

/-- Does the identifier look like a content-address (known base and tag shape,
spec section 4.5 rule 3)? -/
def isTrusty (u : String) : Bool :=
  decide (u.data.take (npBase ++ typeTag).data.length = (npBase ++ typeTag).data)

/-- Modelled from the spec (section 4.5, rules 1 and 2): structural checks.
Exactly four parts must be present (violation: wrong part count); the head
must contain the four linking statements, each referencing a part that is
actually present (violation: missing or dangling link) and non-empty
(violation: empty part).  On success the four-part document is returned. -/
def rawCheck (r : Raw) : Except VErr Doc :=
  if r.graphs.length = 4 then
    match findGraph r.graphs (r.uri ++ "#head"), findGraph r.graphs (r.uri ++ "#assertion"),
        findGraph r.graphs (r.uri ++ "#provenance"), findGraph r.graphs (r.uri ++ "#pubinfo") with
    | some hg, some ag, some pg, some ig =>
      if ⟨.iri r.uri, prType, npNanopub⟩ ∈ hg ∧
          ⟨.iri r.uri, linkAssertion, .iri (r.uri ++ "#assertion")⟩ ∈ hg ∧
          ⟨.iri r.uri, linkProv, .iri (r.uri ++ "#provenance")⟩ ∈ hg ∧
          ⟨.iri r.uri, linkInfo, .iri (r.uri ++ "#pubinfo")⟩ ∈ hg then
        if ag = ∅ then .error .emptyPart
        else if pg = ∅ then .error .emptyPart
        else if ig = ∅ then .error .emptyPart
        else .ok ⟨hg, ag, pg, ig⟩
      else .error .missingLink
    | _, _, _, _ => .error .missingLink
  else .error .wrongPartCount

/-- Remove the embedded signature statements from publication-info, recovering
the content signed at signing time (spec section 4.5, rule 4). -/
def stripSig (d : Doc) : Doc :=
  { d with pubinfo := d.pubinfo.filter fun st =>
      ¬(st.p = prHasSig ∨ st.p = prHasPubKey ∨ st.p = prHasAlg) }

/-- The signature values embedded in a part. -/
def sigVals (g : Finset Stmt) : List String :=
  (sortL g).filterMap fun st =>
    if st.p = prHasSig then
      match st.o with
      | .lit v => some v
      | _ => none
    else none

/-- The public-key values embedded in a part. -/
def pubKeyVals (g : Finset Stmt) : List String :=
  (sortL g).filterMap fun st =>
    if st.p = prHasPubKey then
      match st.o with
      | .lit v => some v
      | _ => none
    else none

/-- Modelled from the spec (section 4.5, rules 3 and 4): integrity checks on a
structurally valid document.  If the declared identifier has the
content-address shape, the canonical form is recomputed with the identifier
substituted back to the placeholder and compared against the identifier's
embedded content code (violation: hash mismatch); if signature statements are
present, the signature is verified by `verify` (public key, signature value,
canonical bytes at signing time) (violation: invalid signature). -/
def integrity (encode : List TStmt → String)
    (verify : String → String → List TStmt → Bool) (u : String) (d : Doc) :
    Except VErr Unit :=
  if isTrusty u then
    if u = trustyUri (encode (canonical (unfinalize u d))) then
      match sigVals d.pubinfo, pubKeyVals d.pubinfo with
      | [], _ => .ok ()
      | [sv], [pk] =>
        if verify pk sv (canonical (stripSig (unfinalize u d))) then .ok ()
        else .error .invalidSignature
      | _, _ => .error .invalidSignature
    else .error .hashMismatch
  else .ok ()

/-- The full validation entry point (spec section 4.5): structural checks,
then integrity checks. -/
def validate (encode : List TStmt → String)
    (verify : String → String → List TStmt → Bool) (r : Raw) : Except VErr Unit :=
  match rawCheck r with
  | .error e => .error e
  | .ok d => integrity encode verify r.uri d

/-! ## Lemmas for walking the pipeline and the validator symbolically -/

theorem substStr_map_suffix (x y : String) {L : List String} {suf : String}
    (hmem : suf ∈ L) :
    substStr (L.map fun s => (x ++ s, y ++ s)) (x ++ suf) = y ++ suf := by
  induction L with
  | nil => cases hmem
  | cons a t ih =>
    by_cases hax : x ++ a = x ++ suf
    · have ha : a = suf := str_append_left_cancel hax
      subst ha
      simp [substStr]
    · have hmem' : suf ∈ t := by
        rcases List.mem_cons.mp hmem with rfl | hm
        · exact absurd rfl hax
        · exact hm
      simp only [List.map_cons, substStr, if_neg hax]
      exact ih hmem'

theorem substStr_keeps {al : List (String × String)} {u : String}
    (h : ∀ q ∈ al, q.1 ≠ u) : substStr al u = u := by
  induction al with
  | nil => rfl
  | cons q t ih =>
    simp only [substStr, if_neg (h q (by simp))]
    exact ih fun q' hq' => h q' (by simp [hq'])

theorem substStr_substPairs_keeps {x y u : String}
    (h : ∀ suf ∈ suffixes, x ++ suf ≠ u) : substStr (substPairs x y) u = u :=
  substStr_keeps fun q hq => by
    obtain ⟨suf, hs, rfl⟩ := List.mem_map.mp hq
    exact h suf hs

theorem append_head (x suf : String) {c : Char} (hx : x.data.head? = some c) :
    (x ++ suf).data.head? = some c := by
  cases hxl : x.data with
  | nil => rw [hxl] at hx; cases hx
  | cons a t =>
    rw [hxl] at hx
    simp only [List.head?_cons, Option.some.injEq] at hx
    rw [String.data_append, hxl]
    simp [hx]

/-- Substitution of placeholder-based references leaves any string whose first
character is not the placeholder's first character unchanged. -/
theorem ph_keeps {x u : String} (hu : u.data.head? ≠ some 'u') :
    substStr (substPairs placeholder x) u = u :=
  substStr_substPairs_keeps fun suf _ hc =>
    hu (hc ▸ append_head placeholder suf (by decide))

theorem substStr_ph (x : String) {suf : String} (hs : suf ∈ suffixes) :
    substStr (substPairs placeholder x) (placeholder ++ suf) = x ++ suf :=
  substStr_map_suffix placeholder x hs

theorem findGraph_cons (n : String) (g : Finset Stmt)
    (t : List (String × Finset Stmt)) (m : String) :
    findGraph ((n, g) :: t) m = if n = m then some g else findGraph t m := by
  by_cases h : n = m
  · rw [if_pos h, findGraph, List.find?_cons_of_pos _ (by simpa using h)]
    rfl
  · rw [if_neg h, findGraph, List.find?_cons_of_neg _ (by simpa using h)]
    rfl

theorem str_append_right_ne (x : String) {a b : String} (h : a ≠ b) :
    x ++ a ≠ x ++ b := fun hc => h (str_append_left_cancel hc)

theorem isTrusty_trustyUri (code : String) : isTrusty (trustyUri code) = true := by
  have hdata : (trustyUri code).data = (npBase ++ typeTag).data ++ code.data := by
    rw [trustyUri, String.data_append]
  rw [isTrusty, decide_eq_true_eq, hdata, List.take_left]

theorem trustyUri_inj {c1 c2 : String} (h : trustyUri c1 = trustyUri c2) : c1 = c2 := by
  have h' : (npBase ++ typeTag) ++ c1 = (npBase ++ typeTag) ++ c2 := h
  exact str_append_left_cancel h'

/-- Walking the structural checks on the serialized form of a four-part
document named by its identifier's sub-resource references. -/
theorem rawCheck_toRaw (id : String) (D : Doc)
    (h1 : (⟨.iri id, prType, npNanopub⟩ : Stmt) ∈ D.head)
    (h2 : (⟨.iri id, linkAssertion, .iri (id ++ "#assertion")⟩ : Stmt) ∈ D.head)
    (h3 : (⟨.iri id, linkProv, .iri (id ++ "#provenance")⟩ : Stmt) ∈ D.head)
    (h4 : (⟨.iri id, linkInfo, .iri (id ++ "#pubinfo")⟩ : Stmt) ∈ D.head)
    (hA : D.assertion ≠ ∅) (hP : D.provenance ≠ ∅) (hI : D.pubinfo ≠ ∅) :
    rawCheck (toRaw id D) = .ok D := by
  have e1 : findGraph (toRaw id D).graphs (id ++ "#head") = some D.head := by
    rw [toRaw, findGraph_cons, if_pos rfl]
  have e2 : findGraph (toRaw id D).graphs (id ++ "#assertion") = some D.assertion := by
    rw [toRaw, findGraph_cons, if_neg (str_append_right_ne id (by decide)),
      findGraph_cons, if_pos rfl]
  have e3 : findGraph (toRaw id D).graphs (id ++ "#provenance") = some D.provenance := by
    rw [toRaw, findGraph_cons, if_neg (str_append_right_ne id (by decide)),
      findGraph_cons, if_neg (str_append_right_ne id (by decide)),
      findGraph_cons, if_pos rfl]
  have e4 : findGraph (toRaw id D).graphs (id ++ "#pubinfo") = some D.pubinfo := by
    rw [toRaw, findGraph_cons, if_neg (str_append_right_ne id (by decide)),
      findGraph_cons, if_neg (str_append_right_ne id (by decide)),
      findGraph_cons, if_neg (str_append_right_ne id (by decide)),
      findGraph_cons, if_pos rfl]
  have hlen : (toRaw id D).graphs.length = 4 := rfl
  have huri : (toRaw id D).uri = id := rfl
  rw [rawCheck, if_pos hlen, huri, e1, e2, e3, e4]
  simp only [h1, h2, h3, h4, and_self, if_true, hA, hP, hI, ite_true, ite_false,
    if_false, if_neg, not_false_eq_true]

/-- Finalization rewrites the placeholder-based head to the identifier-based
head. -/
theorem finalize_headStmts (id : String) :
    Finset.image (mapT (substTerm (substPairs placeholder id))) (headStmts placeholder) =
      headStmts id := by
  have hph : substStr (substPairs placeholder id) placeholder = id := by
    have h0 := substStr_ph id (show "" ∈ suffixes by decide)
    rwa [String.append_empty, String.append_empty] at h0
  have hA := substStr_ph id (show "#assertion" ∈ suffixes by decide)
  have hP := substStr_ph id (show "#provenance" ∈ suffixes by decide)
  have hI := substStr_ph id (show "#pubinfo" ∈ suffixes by decide)
  have k1 : substStr (substPairs placeholder id) "rdf:type" = "rdf:type" :=
    ph_keeps (by decide)
  have k2 : substStr (substPairs placeholder id) "np:Nanopublication" =
      "np:Nanopublication" := ph_keeps (by decide)
  have k3 : substStr (substPairs placeholder id) "np:hasAssertion" =
      "np:hasAssertion" := ph_keeps (by decide)
  have k4 : substStr (substPairs placeholder id) "np:hasProvenance" =
      "np:hasProvenance" := ph_keeps (by decide)
  have k5 : substStr (substPairs placeholder id) "np:hasPublicationInfo" =
      "np:hasPublicationInfo" := ph_keeps (by decide)
  simp only [headStmts, prType, npNanopub, linkAssertion, linkProv, linkInfo,
    Finset.image_insert, Finset.image_singleton, mapT, substTerm, hph, hA, hP, hI,
    k1, k2, k3, k4, k5]

theorem mem_headStmts_type (x : String) :
    (⟨.iri x, prType, npNanopub⟩ : Stmt) ∈ headStmts x := by
  simp [headStmts]

theorem mem_headStmts_assertion (x : String) :
    (⟨.iri x, linkAssertion, .iri (x ++ "#assertion")⟩ : Stmt) ∈ headStmts x := by
  simp [headStmts]

theorem mem_headStmts_prov (x : String) :
    (⟨.iri x, linkProv, .iri (x ++ "#provenance")⟩ : Stmt) ∈ headStmts x := by
  simp [headStmts]

theorem mem_headStmts_info (x : String) :
    (⟨.iri x, linkInfo, .iri (x ++ "#pubinfo")⟩ : Stmt) ∈ headStmts x := by
  simp [headStmts]

/-- Blank-identifier renamings that are injective on a document's blank
identifiers preserve statements injectively. -/
theorem relabelTerm_inj_on_terms {σ : String → String} {S : Finset String}
    (hσ : Set.InjOn σ ↑S) {t1 t2 : Term} (h1 : termBnodes t1 ⊆ S)
    (h2 : termBnodes t2 ⊆ S) (heq : relabelTerm σ t1 = relabelTerm σ t2) :
    t1 = t2 := by
  cases t1 with
  | bnode b1 =>
    cases t2 with
    | bnode b2 =>
      simp only [relabelTerm, Term.bnode.injEq] at heq
      have hb1 : b1 ∈ S := by simpa [termBnodes] using h1
      have hb2 : b2 ∈ S := by simpa [termBnodes] using h2
      rw [hσ (by simpa using hb1) (by simpa using hb2) heq]
    | iri s => simp [relabelTerm] at heq
    | lit s => simp [relabelTerm] at heq
  | iri s1 =>
    cases t2 <;> simp_all [relabelTerm]
  | lit s1 =>
    cases t2 <;> simp_all [relabelTerm]

theorem relabel_pubinfo_card {σ : String → String} {d : Doc}
    (hσ : Set.InjOn σ ↑(bnodeSet d)) :
    (relabelDoc σ d).pubinfo.card = d.pubinfo.card := by
  apply Finset.card_image_of_injOn
  intro s1 hs1 s2 hs2 heq
  have hd1 : s1 ∈ docStmts d := (part_sub_docStmts d).2.2.2 hs1
  have hd2 : s2 ∈ docStmts d := (part_sub_docStmts d).2.2.2 hs2
  have hb1 := stmtBnodes_sub d hd1
  have hb2 := stmtBnodes_sub d hd2
  cases s1 with
  | mk a1 b1 c1 =>
    cases s2 with
    | mk a2 b2 c2 =>
      simp only [mapT, Stmt.mk.injEq] at heq
      obtain ⟨e1, e2, e3⟩ := heq
      simp only [stmtBnodes, Finset.union_subset_iff] at hb1 hb2
      obtain ⟨⟨u1, v1⟩, w1⟩ := hb1
      obtain ⟨⟨u2, v2⟩, w2⟩ := hb2
      simp only [Stmt.mk.injEq]
      exact ⟨relabelTerm_inj_on_terms hσ u1 u2 e1,
        relabelTerm_inj_on_terms hσ v1 v2 e2,
        relabelTerm_inj_on_terms hσ w1 w2 e3⟩

theorem relabel_assertion_card {σ : String → String} {d : Doc}
    (hσ : Set.InjOn σ ↑(bnodeSet d)) :
    (relabelDoc σ d).assertion.card = d.assertion.card := by
  apply Finset.card_image_of_injOn
  intro s1 hs1 s2 hs2 heq
  have hd1 : s1 ∈ docStmts d := (part_sub_docStmts d).2.1 hs1
  have hd2 : s2 ∈ docStmts d := (part_sub_docStmts d).2.1 hs2
  have hb1 := stmtBnodes_sub d hd1
  have hb2 := stmtBnodes_sub d hd2
  cases s1 with
  | mk a1 b1 c1 =>
    cases s2 with
    | mk a2 b2 c2 =>
      simp only [mapT, Stmt.mk.injEq] at heq
      obtain ⟨e1, e2, e3⟩ := heq
      simp only [stmtBnodes, Finset.union_subset_iff] at hb1 hb2
      obtain ⟨⟨u1, v1⟩, w1⟩ := hb1
      obtain ⟨⟨u2, v2⟩, w2⟩ := hb2
      simp only [Stmt.mk.injEq]
      exact ⟨relabelTerm_inj_on_terms hσ u1 u2 e1,
        relabelTerm_inj_on_terms hσ v1 v2 e2,
        relabelTerm_inj_on_terms hσ w1 w2 e3⟩

theorem sigStmts_card (x sv pk alg : String) : (sigStmts x sv pk alg).card = 3 := by
  have hne1 : prHasSig ≠ prHasPubKey := by decide
  have hne2 : prHasSig ≠ prHasAlg := by decide
  have hne3 : prHasPubKey ≠ prHasAlg := by decide
  rw [sigStmts, Finset.card_insert_of_not_mem (by
      simp only [Finset.mem_insert, Finset.mem_singleton, Stmt.mk.injEq]
      push_neg
      exact ⟨fun _ h => absurd h hne1, fun _ h => absurd h hne2⟩),
    Finset.card_insert_of_not_mem (by
      simp only [Finset.mem_singleton, Stmt.mk.injEq]
      push_neg
      exact fun _ h => absurd h hne3),
    Finset.card_singleton]

/-- A document built from caller-supplied statement lists; insertion order and
duplicates are immaterial because parts are statement sets (spec section 3). -/
def docOfLists (hl al pl il : List Stmt) : Doc :=
  ⟨hl.toFinset, al.toFinset, pl.toFinset, il.toFinset⟩

theorem toFinset_map_eq {α β : Type*} [DecidableEq α] [DecidableEq β]
    (f : α → β) (l : List α) : (l.map f).toFinset = l.toFinset.image f := by
  ext x
  simp

/-! ## The CLI (`nanopub/__main__.py`) -/

/-- The code-point ranges of the characters matched by Python's `\\d` in a
`str` pattern (the Unicode decimal digits, category Nd), as accepted by
CPython's `re` module. -/
def pyDigitRanges : List (ℕ × ℕ) :=
  [(48, 57), (1632, 1641), (1776, 1785),
   (1984, 1993), (2406, 2415), (2534, 2543),
   (2662, 2671), (2790, 2799), (2918, 2927),
   (3046, 3055), (3174, 3183), (3302, 3311),
   (3430, 3439), (3558, 3567), (3664, 3673),
   (3792, 3801), (3872, 3881), (4160, 4169),
   (4240, 4249), (6112, 6121), (6160, 6169),
   (6470, 6479), (6608, 6617), (6784, 6793),
   (6800, 6809), (6992, 7001), (7088, 7097),
   (7232, 7241), (7248, 7257), (42528, 42537),
   (43216, 43225), (43264, 43273), (43472, 43481),
   (43504, 43513), (43600, 43609), (44016, 44025),
   (65296, 65305), (66720, 66729), (68912, 68921),
   (69734, 69743), (69872, 69881), (69942, 69951),
   (70096, 70105), (70384, 70393), (70736, 70745),
   (70864, 70873), (71248, 71257), (71360, 71369),
   (71472, 71481), (71904, 71913), (72016, 72025),
   (72784, 72793), (73040, 73049), (73120, 73129),
   (92768, 92777), (92864, 92873), (93008, 93017),
   (120782, 120831), (123200, 123209), (123632, 123641),
   (125264, 125273), (130032, 130041)]

/-- Python's `\\d`: any Unicode decimal digit. -/
def isPyDigit (c : Char) : Bool :=
  pyDigitRanges.any fun r => decide (r.1 ≤ c.toNat ∧ c.toNat ≤ r.2)

/-- The literal head of `ORCID_ID_REGEX`: `https://orcid.org/`. -/
def orcidHead : List Char := "https://orcid.org/".data

/-- One group of `(\d{4}-)`: four decimal digits then a hyphen. -/
def orcidGroup : List Char → Bool
  | [a, b, c, d, h] =>
    isPyDigit a && isPyDigit b && isPyDigit c && isPyDigit d && decide (h = '-')
  | _ => false

/-- The trailing `\d{3}(\d|X)`: three digits then a digit or `X`. -/
def orcidTail : List Char → Bool
  | [a, b, c, x] =>
    isPyDigit a && isPyDigit b && isPyDigit c && (isPyDigit x || decide (x = 'X'))
  | _ => false

/-- A full match of the body of `ORCID_ID_REGEX`
(`^https://orcid.org/(\d{4}-){3}\d{3}(\d|X)$`, `src/nanopub/__main__.py`
line 21) against the entire character list: the 18-character literal head,
three five-character digit groups, and the four-character tail. -/
def orcidCore (l : List Char) : Bool :=
  decide (l.take 18 = orcidHead) && orcidGroup ((l.drop 18).take 5) &&
    orcidGroup ((l.drop 23).take 5) && orcidGroup ((l.drop 28).take 5) &&
    orcidTail (l.drop 33)

/-- `re.match(ORCID_ID_REGEX, s)` as a predicate: the pattern is anchored at
the start by `re.match` and at the end by `$`, and in Python `$` matches at
the end of the string and also just before a final newline. -/
def reMatchOrcid (s : String) : Bool :=
  orcidCore s.data ||
    (match s.data.getLast? with
     | some c => decide (c = '\n') && orcidCore s.data.dropLast
     | none => false)

/-- The error message of `validate_orcid_id` (`src/nanopub/__main__.py`
lines 33-34). -/
def orcidErrMsg : String :=
  "Your ORCID iD is not valid, please provide a valid ORCID iD that " ++
    "looks like: https://orcid.org/0000-0000-0000-0000"

/-- `validate_orcid_id` (`src/nanopub/__main__.py` lines 24-34): return the
input unchanged on a regex match, otherwise raise `ValueError` with the fixed
message (modelled as `Except.error`). -/
def validate_orcid_id (s : String) : Except String String :=
  if reMatchOrcid s then .ok s else .error orcidErrMsg

/-- `posixpath.split` (used by the CLI `sign` command as `os.path.split`):
`i = p.rfind('/') + 1; head, tail = p[:i], p[i:]`, then `head` is stripped of
trailing slashes unless it is empty or consists only of slashes.  Here the
suffix after the last slash is `takeWhile (≠ '/')` of the reversed list and
the prefix up to and including the last slash is the complementary
`dropWhile`. -/
def pySplit (p : List Char) : List Char × List Char :=
  let head := (p.reverse.dropWhile fun c => !decide (c = '/')).reverse
  let tail := (p.reverse.takeWhile fun c => !decide (c = '/')).reverse
  if head ≠ [] ∧ ¬(head.all fun c => decide (c = '/')) = true then
    ((head.reverse.dropWhile fun c => decide (c = '/')).reverse, tail)
  else (head, tail)

/-- The output path of the CLI `sign` command (`src/nanopub/__main__.py`
lines 72-78): `folder_path, filename = os.path.split(filepath)` and
`signed_filepath = f"{folder_path}/signed.{filename}"`. -/
def signedFilepath (p : List Char) : List Char :=
  (pySplit p).1 ++ '/' :: ("signed.".data ++ (pySplit p).2)

theorem takeWhile_app (q : Char → Bool) {A : List Char} (B : List Char)
    (hA : ∀ a ∈ A, q a = true) : (A ++ B).takeWhile q = A ++ B.takeWhile q := by
  induction A with
  | nil => rfl
  | cons a t ih =>
    rw [List.cons_append, List.takeWhile_cons_of_pos (hA a (by simp)), List.cons_append,
      ih fun a ha => hA a (by simp [ha])]

theorem dropWhile_app (q : Char → Bool) {A : List Char} (B : List Char)
    (hA : ∀ a ∈ A, q a = true) : (A ++ B).dropWhile q = B.dropWhile q := by
  induction A with
  | nil => rfl
  | cons a t ih =>
    rw [List.cons_append, List.dropWhile_cons_of_pos (hA a (by simp)),
      ih fun a ha => hA a (by simp [ha])]

theorem dropWhile_head_false (q : Char → Bool) {l : List Char} {x : Char}
    {xs : List Char} (h : l.dropWhile q = x :: xs) : q x = false := by
  induction l with
  | nil => cases h
  | cons a t ih =>
    by_cases hq : q a = true
    · rw [List.dropWhile_cons_of_pos hq] at h
      exact ih h
    · rw [List.dropWhile_cons_of_neg hq] at h
      cases h
      simpa using hq

/-- The tail returned by `pySplit` never contains a separator. -/
theorem pySplit_tail_noSlash (p : List Char) :
    ∀ c ∈ (pySplit p).2, c ≠ '/' := by
  intro c hc
  have htail : (pySplit p).2 = (p.reverse.takeWhile fun c => !decide (c = '/')).reverse := by
    rw [pySplit]
    split <;> rfl
  rw [htail, List.mem_reverse] at hc
  have := List.mem_takeWhile_imp hc
  simpa using this

/-- Splitting a path of the shape `folder ++ "/" ++ name`, where the folder
does not end in a separator and contains a non-separator, and the name has no
separator: the folder and name are recovered exactly. -/
theorem pySplit_signed {h S t : List Char}
    (hS : ∀ c ∈ S, c ≠ '/') (ht : ∀ c ∈ t, c ≠ '/')
    (hh : ∃ c ∈ h, c ≠ '/') (hlast : ∀ x xs, h.reverse = x :: xs → x ≠ '/') :
    pySplit (h ++ '/' :: (S ++ t)) = (h, S ++ t) := by
  have hq : ∀ c ∈ t.reverse ++ S.reverse, (fun c => !decide (c = '/')) c = true := by
    intro c hc
    rcases List.mem_append.mp hc with hct | hcs
    · simp [ht c (List.mem_reverse.mp hct)]
    · simp [hS c (List.mem_reverse.mp hcs)]
  have hrev : (h ++ '/' :: (S ++ t)).reverse =
      (t.reverse ++ S.reverse) ++ ('/' :: h.reverse) := by
    simp [List.reverse_append, List.reverse_cons, List.append_assoc]
  have htake : ((h ++ '/' :: (S ++ t)).reverse.takeWhile fun c => !decide (c = '/')) =
      t.reverse ++ S.reverse := by
    rw [hrev, takeWhile_app _ _ hq, List.takeWhile_cons_of_neg (by simp), List.append_nil]
  have hdrop : ((h ++ '/' :: (S ++ t)).reverse.dropWhile fun c => !decide (c = '/')) =
      '/' :: h.reverse := by
    rw [hrev, dropWhile_app _ _ hq, List.dropWhile_cons_of_neg (by simp)]
  have hhead : (((h ++ '/' :: (S ++ t)).reverse.dropWhile
      fun c => !decide (c = '/')).reverse) = h ++ ['/'] := by
    rw [hdrop, List.reverse_cons, List.reverse_reverse]
  have htail2 : (((h ++ '/' :: (S ++ t)).reverse.takeWhile
      fun c => !decide (c = '/')).reverse) = S ++ t := by
    rw [htake]
    simp
  obtain ⟨c0, hc0, hc0ne⟩ := hh
  have hcond : (h ++ ['/'] ≠ [] ∧
      ¬((h ++ ['/']).all fun c => decide (c = '/')) = true) := by
    refine ⟨by simp, fun hall => ?_⟩
    have := List.all_eq_true.mp hall c0 (by simp [hc0])
    exact hc0ne (by simpa using this)
  have hstrip : (((h ++ ['/']).reverse.dropWhile fun c => decide (c = '/')).reverse) = h := by
    rw [List.reverse_append, List.reverse_singleton, List.singleton_append,
      List.dropWhile_cons_of_pos (by simp)]
    cases hr : h.reverse with
    | nil =>
      have : h = [] := by simpa using congrArg List.reverse hr
      subst this
      cases hc0
    | cons x xs =>
      rw [List.dropWhile_cons_of_neg (by simp [hlast x xs hr]), ← hr, List.reverse_reverse]
  rw [pySplit]
  simp only [hhead, htail2]
  rw [if_pos hcond, hstrip]

theorem rawCheck_toRaw_emptyA (id : String) (D : Doc)
    (h1 : (⟨.iri id, prType, npNanopub⟩ : Stmt) ∈ D.head)
    (h2 : (⟨.iri id, linkAssertion, .iri (id ++ "#assertion")⟩ : Stmt) ∈ D.head)
    (h3 : (⟨.iri id, linkProv, .iri (id ++ "#provenance")⟩ : Stmt) ∈ D.head)
    (h4 : (⟨.iri id, linkInfo, .iri (id ++ "#pubinfo")⟩ : Stmt) ∈ D.head)
    (hA : D.assertion = ∅) :
    rawCheck (toRaw id D) = .error .emptyPart := by
  have e1 : findGraph (toRaw id D).graphs (id ++ "#head") = some D.head := by
    rw [toRaw, findGraph_cons, if_pos rfl]
  have e2 : findGraph (toRaw id D).graphs (id ++ "#assertion") = some D.assertion := by
    rw [toRaw, findGraph_cons, if_neg (str_append_right_ne id (by decide)),
      findGraph_cons, if_pos rfl]
  have e3 : findGraph (toRaw id D).graphs (id ++ "#provenance") = some D.provenance := by
    rw [toRaw, findGraph_cons, if_neg (str_append_right_ne id (by decide)),
      findGraph_cons, if_neg (str_append_right_ne id (by decide)),
      findGraph_cons, if_pos rfl]
  have e4 : findGraph (toRaw id D).graphs (id ++ "#pubinfo") = some D.pubinfo := by
    rw [toRaw, findGraph_cons, if_neg (str_append_right_ne id (by decide)),
      findGraph_cons, if_neg (str_append_right_ne id (by decide)),
      findGraph_cons, if_neg (str_append_right_ne id (by decide)),
      findGraph_cons, if_pos rfl]
  have hlen : (toRaw id D).graphs.length = 4 := rfl
  have huri : (toRaw id D).uri = id := rfl
  rw [rawCheck, if_pos hlen, huri, e1, e2, e3, e4]
  simp only [h1, h2, h3, h4, and_self, if_true, hA, ite_true]

theorem findGraph_toRaw (id : String) (D : Doc) :
    findGraph (toRaw id D).graphs (id ++ "#head") = some D.head ∧
    findGraph (toRaw id D).graphs (id ++ "#assertion") = some D.assertion ∧
    findGraph (toRaw id D).graphs (id ++ "#provenance") = some D.provenance ∧
    findGraph (toRaw id D).graphs (id ++ "#pubinfo") = some D.pubinfo := by
  refine ⟨?_, ?_, ?_, ?_⟩
  · rw [toRaw, findGraph_cons, if_pos rfl]
  · rw [toRaw, findGraph_cons, if_neg (str_append_right_ne id (by decide)),
      findGraph_cons, if_pos rfl]
  · rw [toRaw, findGraph_cons, if_neg (str_append_right_ne id (by decide)),
      findGraph_cons, if_neg (str_append_right_ne id (by decide)),
      findGraph_cons, if_pos rfl]
  · rw [toRaw, findGraph_cons, if_neg (str_append_right_ne id (by decide)),
      findGraph_cons, if_neg (str_append_right_ne id (by decide)),
      findGraph_cons, if_neg (str_append_right_ne id (by decide)),
      findGraph_cons, if_pos rfl]

theorem rawCheck_toRaw_missingLink (id : String) (D : Doc)
    (hno : ¬((⟨.iri id, prType, npNanopub⟩ : Stmt) ∈ D.head ∧
      (⟨.iri id, linkAssertion, .iri (id ++ "#assertion")⟩ : Stmt) ∈ D.head ∧
      (⟨.iri id, linkProv, .iri (id ++ "#provenance")⟩ : Stmt) ∈ D.head ∧
      (⟨.iri id, linkInfo, .iri (id ++ "#pubinfo")⟩ : Stmt) ∈ D.head)) :
    rawCheck (toRaw id D) = .error .missingLink := by
  obtain ⟨e1, e2, e3, e4⟩ := findGraph_toRaw id D
  have hlen : (toRaw id D).graphs.length = 4 := rfl
  have huri : (toRaw id D).uri = id := rfl
  rw [rawCheck, if_pos hlen, huri, e1, e2, e3, e4]
  simp only [hno, ite_false, if_false]

theorem rawCheck_toRaw_emptyP (id : String) (D : Doc)
    (h1 : (⟨.iri id, prType, npNanopub⟩ : Stmt) ∈ D.head)
    (h2 : (⟨.iri id, linkAssertion, .iri (id ++ "#assertion")⟩ : Stmt) ∈ D.head)
    (h3 : (⟨.iri id, linkProv, .iri (id ++ "#provenance")⟩ : Stmt) ∈ D.head)
    (h4 : (⟨.iri id, linkInfo, .iri (id ++ "#pubinfo")⟩ : Stmt) ∈ D.head)
    (hA : D.assertion ≠ ∅) (hP : D.provenance = ∅) :
    rawCheck (toRaw id D) = .error .emptyPart := by
  obtain ⟨e1, e2, e3, e4⟩ := findGraph_toRaw id D
  have hlen : (toRaw id D).graphs.length = 4 := rfl
  have huri : (toRaw id D).uri = id := rfl
  rw [rawCheck, if_pos hlen, huri, e1, e2, e3, e4]
  simp only [h1, h2, h3, h4, and_self, if_true, hA, hP, ite_true, ite_false,
    if_false, if_neg, not_false_eq_true]

theorem rawCheck_toRaw_emptyI (id : String) (D : Doc)
    (h1 : (⟨.iri id, prType, npNanopub⟩ : Stmt) ∈ D.head)
    (h2 : (⟨.iri id, linkAssertion, .iri (id ++ "#assertion")⟩ : Stmt) ∈ D.head)
    (h3 : (⟨.iri id, linkProv, .iri (id ++ "#provenance")⟩ : Stmt) ∈ D.head)
    (h4 : (⟨.iri id, linkInfo, .iri (id ++ "#pubinfo")⟩ : Stmt) ∈ D.head)
    (hA : D.assertion ≠ ∅) (hP : D.provenance ≠ ∅) (hI : D.pubinfo = ∅) :
    rawCheck (toRaw id D) = .error .emptyPart := by
  obtain ⟨e1, e2, e3, e4⟩ := findGraph_toRaw id D
  have hlen : (toRaw id D).graphs.length = 4 := rfl
  have huri : (toRaw id D).uri = id := rfl
  rw [rawCheck, if_pos hlen, huri, e1, e2, e3, e4]
  simp only [h1, h2, h3, h4, and_self, if_true, hA, hP, hI, ite_true, ite_false,
    if_false, if_neg, not_false_eq_true]

theorem validate_of_rawCheck_error {encode : List TStmt → String}
    {verify : String → String → List TStmt → Bool} {r : Raw} {e : VErr}
    (h : rawCheck r = .error e) : validate encode verify r = .error e := by
  rw [validate, h]

theorem image_ne_empty {s : Finset Stmt} (f : Stmt → Stmt) (h : s ≠ ∅) :
    s.image f ≠ ∅ := by
  rw [Ne, Finset.image_eq_empty]
  exact h

/-! ## The claims -/

/-- C3: for every document carrying a content-address identifier produced by
the pipeline (canonicalize, encode, finalize), substituting that identifier
back to the reserved placeholder in every position of every part recovers the
pre-finalization document, and recomputing canonicalization and encoding
reproduces exactly the content code embedded in the identifier — the check
the validator applies to identified documents. -/
theorem claim_C3 (encode : List TStmt → String) (d : Doc)
    (hfresh : ∀ s ∈ docIris d,
      s ∉ (substPairs placeholder (makeId encode d)).map Prod.snd) :
    unfinalize (makeId encode d) (finalize (makeId encode d) d) = d ∧
    trustyUri (encode (canonical
        (unfinalize (makeId encode d) (finalize (makeId encode d) d)))) =
      makeId encode d := by
  have h := unfinalize_finalize (makeId encode d) d hfresh
  refine ⟨h, ?_⟩
  rw [h]
  rfl

/-- C4: canonicalization and encoding are deterministic — two documents whose
statement lists agree up to an injective blank-identifier renaming and up to
insertion order receive the same encoded canonical form, for every encoding
function. -/
theorem claim_C4 (encode : List TStmt → String) (σ : String → String)
    (hσ : Function.Injective σ) (h1 a1 p1 i1 h2 a2 p2 i2 : List Stmt)
    (hh : List.Perm h2 (h1.map (mapT (relabelTerm σ))))
    (ha : List.Perm a2 (a1.map (mapT (relabelTerm σ))))
    (hp : List.Perm p2 (p1.map (mapT (relabelTerm σ))))
    (hi : List.Perm i2 (i1.map (mapT (relabelTerm σ)))) :
    encode (canonical (docOfLists h2 a2 p2 i2)) =
      encode (canonical (docOfLists h1 a1 p1 i1)) := by
  have hdoc : docOfLists h2 a2 p2 i2 = relabelDoc σ (docOfLists h1 a1 p1 i1) := by
    simp only [docOfLists, relabelDoc, mapDoc, Doc.mk.injEq]
    exact ⟨(List.toFinset_eq_of_perm _ _ hh).trans (toFinset_map_eq _ _),
      (List.toFinset_eq_of_perm _ _ ha).trans (toFinset_map_eq _ _),
      (List.toFinset_eq_of_perm _ _ hp).trans (toFinset_map_eq _ _),
      (List.toFinset_eq_of_perm _ _ hi).trans (toFinset_map_eq _ _)⟩
  rw [hdoc, canonical_relabel _ σ hσ.injOn]

/-- C6: a document missing the provenance part (three graphs), or carrying an
extra fifth part (five graphs), fails validation with the wrong-part-count
reason; a well-linked document with an empty assertion part fails with the
empty-part reason; all three are structural reasons distinct from the
hash-mismatch reason. -/
theorem claim_C6 (encode : List TStmt → String)
    (verify : String → String → List TStmt → Bool) :
    (∀ (u : String) (hg ag ig : Finset Stmt),
      validate encode verify ⟨u, [(u ++ "#head", hg), (u ++ "#assertion", ag),
        (u ++ "#pubinfo", ig)]⟩ = .error .wrongPartCount) ∧
    (∀ (u : String) (gs : List (String × Finset Stmt)), gs.length = 5 →
      validate encode verify ⟨u, gs⟩ = .error .wrongPartCount) ∧
    (∀ (u : String) (hg pg ig : Finset Stmt),
      (⟨.iri u, prType, npNanopub⟩ : Stmt) ∈ hg →
      (⟨.iri u, linkAssertion, .iri (u ++ "#assertion")⟩ : Stmt) ∈ hg →
      (⟨.iri u, linkProv, .iri (u ++ "#provenance")⟩ : Stmt) ∈ hg →
      (⟨.iri u, linkInfo, .iri (u ++ "#pubinfo")⟩ : Stmt) ∈ hg →
      validate encode verify (toRaw u ⟨hg, ∅, pg, ig⟩) = .error .emptyPart) ∧
    (VErr.wrongPartCount ≠ VErr.hashMismatch ∧ VErr.missingLink ≠ VErr.hashMismatch ∧
      VErr.emptyPart ≠ VErr.hashMismatch) := by
  refine ⟨?_, ?_, ?_, by decide, by decide, by decide⟩
  · intro u hg ag ig
    refine validate_of_rawCheck_error ?_
    rw [rawCheck, if_neg (by simp)]
  · intro u gs hlen
    refine validate_of_rawCheck_error ?_
    rw [rawCheck, if_neg (by simp [hlen])]
  · intro u hg pg ig h1 h2 h3 h4
    exact validate_of_rawCheck_error (rawCheck_toRaw_emptyA u ⟨hg, ∅, pg, ig⟩ h1 h2 h3 h4 rfl)

/-- C7: signing with absent key material fails with the missing-key error and
with unreadable/malformed key material fails with the invalid-key error; these
typed errors are the only failure modes of the signing entry point, so a
failure is always a recoverable key-related condition for the caller. -/
theorem claim_C7 {κ : Type} (encode : List TStmt → String)
    (parse : String → Option κ) (scheme : κ → List TStmt → String)
    (keyMat : Option String) (pk alg : String) (d : Doc) :
    (keyMat = none →
      signEntry encode parse scheme keyMat pk alg d = .error .keyMissing) ∧
    (∀ m, keyMat = some m → parse m = none →
      signEntry encode parse scheme keyMat pk alg d = .error .keyInvalid) ∧
    (∀ e, signEntry encode parse scheme keyMat pk alg d = .error e →
      (e = .keyMissing ∨ e = .keyInvalid) ∧
        (keyMat = none ∨ ∃ m, keyMat = some m ∧ parse m = none)) := by
  refine ⟨fun hk => by rw [hk]; rfl, fun m hk hp => by rw [hk, signEntry, hp], fun e he => ?_⟩
  cases hk : keyMat with
  | none =>
    rw [hk, signEntry] at he
    cases he
    exact ⟨Or.inl rfl, Or.inl rfl⟩
  | some m =>
    rw [hk, signEntry] at he
    cases hp : parse m with
    | none =>
      rw [hp] at he
      cases he
      exact ⟨Or.inr rfl, Or.inr ⟨m, rfl, hp⟩⟩
    | some k =>
      rw [hp] at he
      cases he

/-- C8: signing is deterministic in its inputs — signing the same logical
content (the same statement sets, supplied in any insertion order) with the
same signing scheme, public key and algorithm tag produces the same final
identifier, the same signed document, and the same signature bytes. -/
theorem claim_C8 (encode sigFn : List TStmt → String) (pk alg : String)
    (h1 a1 p1 i1 h2 a2 p2 i2 : List Stmt)
    (hh : List.Perm h2 h1) (ha : List.Perm a2 a1)
    (hp : List.Perm p2 p1) (hi : List.Perm i2 i1) :
    signDoc encode sigFn pk alg (docOfLists h2 a2 p2 i2) =
      signDoc encode sigFn pk alg (docOfLists h1 a1 p1 i1) ∧
    sigFn (canonical (docOfLists h2 a2 p2 i2)) =
      sigFn (canonical (docOfLists h1 a1 p1 i1)) := by
  have hdoc : docOfLists h2 a2 p2 i2 = docOfLists h1 a1 p1 i1 := by
    simp only [docOfLists, Doc.mk.injEq]
    exact ⟨List.toFinset_eq_of_perm _ _ hh, List.toFinset_eq_of_perm _ _ ha,
      List.toFinset_eq_of_perm _ _ hp, List.toFinset_eq_of_perm _ _ hi⟩
  rw [hdoc]
  exact ⟨rfl, rfl⟩

/-- C5 (amended): for a document signed by the pipeline, replacing the
statements of any of the four parts such that the four head linking statements
remain present, every part remains non-empty, and the recovered content is not
a blank-identifier relabeling of the signed content, makes validation fail
with the hash-mismatch reason (assuming the encoding does not collide on the
two canonical forms involved); a mutation that removes a head linking
statement instead fails with the missing-link reason, and one that empties a
part instead fails with the empty-part reason; and stripping the embedded
signature statements from publication-info fails with the hash-mismatch
reason (the identifier covers the signature statements). -/
theorem claim_C5_amended (encode sigFn : List TStmt → String)
    (verify : String → String → List TStmt → Bool) (pk alg : String)
    (a p i : Finset Stmt) (d d2 : Doc) (id : String)
    (hd : d = mkDoc a p i) (hd2 : d2 = addSig (sigFn (canonical d)) pk alg d)
    (hid : id = makeId encode d2) :
    (∀ H A P I : Finset Stmt,
      (⟨.iri id, prType, npNanopub⟩ : Stmt) ∈ H →
      (⟨.iri id, linkAssertion, .iri (id ++ "#assertion")⟩ : Stmt) ∈ H →
      (⟨.iri id, linkProv, .iri (id ++ "#provenance")⟩ : Stmt) ∈ H →
      (⟨.iri id, linkInfo, .iri (id ++ "#pubinfo")⟩ : Stmt) ∈ H →
      A ≠ ∅ → P ≠ ∅ → I ≠ ∅ →
      (¬∃ σ, Set.InjOn σ ↑(bnodeSet (unfinalize id ⟨H, A, P, I⟩)) ∧
          relabelDoc σ (unfinalize id ⟨H, A, P, I⟩) = d2) →
      (encode (canonical (unfinalize id ⟨H, A, P, I⟩)) = encode (canonical d2) →
        canonical (unfinalize id ⟨H, A, P, I⟩) = canonical d2) →
      validate encode verify (toRaw id ⟨H, A, P, I⟩) = .error .hashMismatch) ∧
    (∀ H A P I : Finset Stmt,
      ¬((⟨.iri id, prType, npNanopub⟩ : Stmt) ∈ H ∧
        (⟨.iri id, linkAssertion, .iri (id ++ "#assertion")⟩ : Stmt) ∈ H ∧
        (⟨.iri id, linkProv, .iri (id ++ "#provenance")⟩ : Stmt) ∈ H ∧
        (⟨.iri id, linkInfo, .iri (id ++ "#pubinfo")⟩ : Stmt) ∈ H) →
      validate encode verify (toRaw id ⟨H, A, P, I⟩) = .error .missingLink) ∧
    (∀ H A P I : Finset Stmt,
      (⟨.iri id, prType, npNanopub⟩ : Stmt) ∈ H →
      (⟨.iri id, linkAssertion, .iri (id ++ "#assertion")⟩ : Stmt) ∈ H →
      (⟨.iri id, linkProv, .iri (id ++ "#provenance")⟩ : Stmt) ∈ H →
      (⟨.iri id, linkInfo, .iri (id ++ "#pubinfo")⟩ : Stmt) ∈ H →
      (A = ∅ ∨ (A ≠ ∅ ∧ P = ∅) ∨ (A ≠ ∅ ∧ P ≠ ∅ ∧ I = ∅)) →
      validate encode verify (toRaw id ⟨H, A, P, I⟩) = .error .emptyPart) ∧
    ((∀ s ∈ docIris d, s ∉ (substPairs placeholder id).map Prod.snd) →
      Disjoint d.pubinfo (sigStmts placeholder (sigFn (canonical d)) pk alg) →
      (encode (canonical d) = encode (canonical d2) → canonical d = canonical d2) →
      a ≠ ∅ → p ≠ ∅ → i ≠ ∅ →
      validate encode verify (toRaw id (finalize id d)) = .error .hashMismatch) := by
  have htr : isTrusty id = true := by
    rw [hid]
    exact isTrusty_trustyUri _
  refine ⟨?_, ?_, ?_, ?_⟩
  · intro H A P I h1 h2 h3 h4 hA hP hI hmut hnc
    have hraw : rawCheck (toRaw id ⟨H, A, P, I⟩) = .ok ⟨H, A, P, I⟩ :=
      rawCheck_toRaw id ⟨H, A, P, I⟩ h1 h2 h3 h4 hA hP hI
    have hne : ¬(id = trustyUri (encode (canonical (unfinalize id ⟨H, A, P, I⟩)))) := by
      intro heq
      have hcode : encode (canonical (unfinalize id ⟨H, A, P, I⟩)) =
          encode (canonical d2) := trustyUri_inj (heq.symm.trans hid)
      exact hmut (canonical_eq_relabel (hnc hcode))
    rw [validate, hraw]
    show integrity encode verify id _ = _
    rw [integrity, if_pos htr, if_neg hne]
  · intro H A P I hno
    exact validate_of_rawCheck_error (rawCheck_toRaw_missingLink id ⟨H, A, P, I⟩ hno)
  · intro H A P I h1 h2 h3 h4 hcase
    rcases hcase with hA | ⟨hA, hP⟩ | ⟨hA, hP, hI⟩
    · exact validate_of_rawCheck_error (rawCheck_toRaw_emptyA id ⟨H, A, P, I⟩ h1 h2 h3 h4 hA)
    · exact validate_of_rawCheck_error (rawCheck_toRaw_emptyP id ⟨H, A, P, I⟩ h1 h2 h3 h4 hA hP)
    · exact validate_of_rawCheck_error
        (rawCheck_toRaw_emptyI id ⟨H, A, P, I⟩ h1 h2 h3 h4 hA hP hI)
  · intro hfresh hdisj hnc hA hP hI
    have hUF : unfinalize id (finalize id d) = d := unfinalize_finalize id d hfresh
    have hheadd : (finalize id d).head = headStmts id := by
      have hph : d.head = headStmts placeholder := by rw [hd]; rfl
      show Finset.image (mapT (substTerm (substPairs placeholder id))) d.head = headStmts id
      rw [hph]
      exact finalize_headStmts id
    have hAne : (finalize id d).assertion ≠ ∅ := by
      have : d.assertion ≠ ∅ := by rw [hd]; exact hA
      exact image_ne_empty _ this
    have hPne : (finalize id d).provenance ≠ ∅ := by
      have : d.provenance ≠ ∅ := by rw [hd]; exact hP
      exact image_ne_empty _ this
    have hIne : (finalize id d).pubinfo ≠ ∅ := by
      have : d.pubinfo ≠ ∅ := by rw [hd]; exact hI
      exact image_ne_empty _ this
    have hraw : rawCheck (toRaw id (finalize id d)) = .ok (finalize id d) := by
      refine rawCheck_toRaw id _ ?_ ?_ ?_ ?_ hAne hPne hIne <;>
        · rw [hheadd]
          first
            | exact mem_headStmts_type id
            | exact mem_headStmts_assertion id
            | exact mem_headStmts_prov id
            | exact mem_headStmts_info id
    have hcards : d2.pubinfo.card = d.pubinfo.card + 3 := by
      have : d2.pubinfo = d.pubinfo ∪ sigStmts placeholder (sigFn (canonical d)) pk alg := by
        rw [hd2]
        rfl
      rw [this, Finset.card_union_of_disjoint hdisj, sigStmts_card]
    have hne : ¬(id = trustyUri (encode (canonical (unfinalize id (finalize id d))))) := by
      intro heq
      have hcode : encode (canonical (unfinalize id (finalize id d))) =
          encode (canonical d2) := trustyUri_inj (heq.symm.trans hid)
      rw [hUF] at hcode
      obtain ⟨σ, hσ, hrel⟩ := canonical_eq_relabel (hnc hcode)
      have hcard := relabel_pubinfo_card hσ
      rw [hrel] at hcard
      omega
    rw [validate, hraw]
    show integrity encode verify id _ = _
    rw [integrity, if_pos htr, if_neg hne]

/-- The set of strings actually accepted by `validate_orcid_id`: the full
pattern match, or the pattern match followed by a single final newline (which
Python's `$` anchor also accepts). -/
def orcidAccepted (s : String) : Prop :=
  orcidCore s.data = true ∨
    (s.data.getLast? = some '\n' ∧ orcidCore s.data.dropLast = true)

instance (s : String) : Decidable (orcidAccepted s) := by
  unfold orcidAccepted
  infer_instance

/-- The concrete input on which `validate_orcid_id` deviates from the plain
pattern reading: a valid ORCID iD followed by a newline. -/
def orcidCex : String := "https://orcid.org/0000-0000-0000-0000\n"

theorem pySplit_fst_last {p : List Char} (hc : ∃ c ∈ (pySplit p).1, c ≠ '/') :
    ∀ x xs, (pySplit p).1.reverse = x :: xs → x ≠ '/' := by
  intro x xs hx
  simp only [pySplit] at hx hc
  split at hx
  next hcond =>
    rw [List.reverse_reverse] at hx
    have := dropWhile_head_false _ hx
    simpa using this
  next hcond =>
    rw [if_neg hcond] at hc
    obtain ⟨c, hcm, hcne⟩ := hc
    rcases not_and_or.mp hcond with h0 | h0
    · rw [not_not.mp h0] at hcm
      cases hcm
    · have hall := not_not.mp h0
      have := List.all_eq_true.mp hall c hcm
      exact absurd (by simpa using this) hcne

/-- C10 (counterexample): for the bare-filename input `file.trig` the CLI
`sign` command's output path is `/signed.file.trig`, whose directory component
under `os.path.split` is `/`, not the input's empty directory component — the
output is written to the filesystem root, not to the input's directory. -/
theorem claim_C10_counterexample :
    signedFilepath "file.trig".data = "/signed.file.trig".data ∧
    pySplit "file.trig".data = ([], "file.trig".data) ∧
    pySplit (signedFilepath "file.trig".data) = ("/".data, "signed.file.trig".data) ∧
    ("/".data : List Char) ≠ ([] : List Char) :=
  ⟨by decide, by decide, by decide, by decide⟩

/-- C10 (amended): whenever the input path's directory component (as computed
by `os.path.split`) contains a non-separator character, the CLI `sign`
command's output path `folder/signed.filename` splits back into the same
directory component with the filename prefixed by `signed.`, and the output
path is distinct from the input path, which is therefore never written to. -/
theorem claim_C10_amended (p : List Char) (hc : ∃ c ∈ (pySplit p).1, c ≠ '/') :
    pySplit (signedFilepath p) = ((pySplit p).1, "signed.".data ++ (pySplit p).2) ∧
    signedFilepath p ≠ p := by
  have hS : ∀ c ∈ "signed.".data, c ≠ '/' := by decide
  have ht : ∀ c ∈ (pySplit p).2, c ≠ '/' := pySplit_tail_noSlash p
  have hlast : ∀ x xs, (pySplit p).1.reverse = x :: xs → x ≠ '/' := pySplit_fst_last hc
  have hmain : pySplit ((pySplit p).1 ++ '/' :: ("signed.".data ++ (pySplit p).2)) =
      ((pySplit p).1, "signed.".data ++ (pySplit p).2) :=
    pySplit_signed hS ht hc hlast
  refine ⟨by rw [signedFilepath]; exact hmain, ?_⟩
  intro habs
  have h2 : (pySplit (signedFilepath p)).2 = (pySplit p).2 := by rw [habs]
  rw [signedFilepath, hmain] at h2
  have hlen := congrArg List.length h2
  have h7 : ("signed.".data).length = 7 := by decide
  simp only [List.length_append, h7] at hlen
  omega

/-! ## Concrete instances for counterexamples and witnesses -/

/-- A concrete stand-in for the digest+encode scheme (spec section 4.2 leaves
the scheme external); the claims hold for every encoding, and the concrete
instances below only need a computable one. -/
def encodeLen : List TStmt → String := fun l => ⟨List.replicate l.length 'e'⟩

/-- A concrete stand-in for the deterministic signature scheme. -/
def sigLen : List TStmt → String := fun l => ⟨List.replicate l.length 's'⟩

/-- The matching concrete verification function. -/
def verifyLen : String → String → List TStmt → Bool :=
  fun _ sv bytes => decide (sv = sigLen bytes)

def stT : Stmt := ⟨.bnode "t", .iri "ex:claims", .lit "hello"⟩

def stU : Stmt := ⟨.bnode "u", .iri "ex:claims", .lit "hello"⟩

def exA : Finset Stmt := {stT}

def exP : Finset Stmt := {⟨.iri (placeholder ++ "#assertion"), .iri "ex:by", .iri "ex:me"⟩}

def exI : Finset Stmt := {⟨.iri placeholder, .iri "ex:note", .lit "info"⟩}

/-- A small concrete document with one blank identifier in its assertion. -/
def exDoc : Doc := mkDoc exA exP exI

/-- The concretely signed document and its identifier. -/
def exSigned : Doc × String := signDoc encodeLen sigLen "PK" "RSA" exDoc

/-- The signed pre-finalization document of `exDoc`. -/
def exD2 : Doc := addSig (sigLen (canonical exDoc)) "PK" "RSA" exDoc

/-- The identifier of the signed document. -/
def exId : String := makeId encodeLen exD2

/-- The signed document with its single assertion statement mutated: the blank
subject `t` replaced by the blank subject `u`. -/
def exMut : Doc := ⟨exSigned.1.head, {stU}, exSigned.1.provenance, exSigned.1.pubinfo⟩

set_option maxRecDepth 1000000 in
/-- C5 (counterexample): for the concretely signed document `exSigned`,
replacing its single assertion statement (blank subject `t`) by the distinct
statement with blank subject `u` — a mutation of a single statement in one of
the four parts, yielding a different document — still validates successfully,
because the content address is invariant under blank-identifier relabeling; so
"mutating any single statement in any part then validating fails with a
hash-mismatch reason" is false as stated. -/
theorem claim_C5_counterexample :
    exSigned.1.assertion = {stT} ∧ stT ≠ stU ∧
    exMut = ⟨exSigned.1.head, insert stU (exSigned.1.assertion.erase stT),
      exSigned.1.provenance, exSigned.1.pubinfo⟩ ∧
    exMut ≠ exSigned.1 ∧
    validate encodeLen verifyLen (toRaw exSigned.2 exMut) = .ok () :=
  ⟨by decide, by decide, by decide, by decide, by rfl⟩

/-! ## Witnesses -/

set_option maxRecDepth 1000000 in
theorem claim_C3_witness :
    unfinalize (makeId encodeLen exDoc) (finalize (makeId encodeLen exDoc) exDoc) = exDoc ∧
    trustyUri (encodeLen (canonical (unfinalize (makeId encodeLen exDoc)
        (finalize (makeId encodeLen exDoc) exDoc)))) = makeId encodeLen exDoc :=
  claim_C3 encodeLen exDoc (by decide)

def w4h : List Stmt := [⟨.iri placeholder, prType, npNanopub⟩]

def w4a : List Stmt := [⟨.bnode "x", .iri "ex:p", .lit "1"⟩, ⟨.bnode "y", .iri "ex:p", .lit "2"⟩]

def w4p : List Stmt := [⟨.iri "ex:s", .iri "ex:q", .lit "3"⟩]

def w4a2 : List Stmt := [⟨.bnode "y", .iri "ex:p", .lit "2"⟩, ⟨.bnode "x", .iri "ex:p", .lit "1"⟩]

set_option maxRecDepth 1000000 in
theorem claim_C4_witness :
    encodeLen (canonical (docOfLists w4h w4a2 w4p w4p)) =
      encodeLen (canonical (docOfLists w4h w4a w4p w4p)) :=
  claim_C4 encodeLen id Function.injective_id w4h w4a w4p w4p w4h w4a2 w4p w4p
    (by decide) (by decide) (by decide) (by decide)

/-- A concrete mutated assertion part that is not a blank relabeling of the
signed assertion (it has two statements where the signed one has one). -/
def exMutA2 : Finset Stmt :=
  {⟨.bnode "t", .iri "ex:other", .lit "z1"⟩, ⟨.iri "ex:s", .iri "ex:other", .lit "z2"⟩}

set_option maxRecDepth 1000000 in
theorem claim_C5_amended_witness :
    validate encodeLen verifyLen (toRaw exId ⟨headStmts exId, exMutA2,
      (finalize exId exD2).provenance, (finalize exId exD2).pubinfo⟩) =
      .error .hashMismatch ∧
    validate encodeLen verifyLen (toRaw exId (finalize exId exDoc)) =
      .error .hashMismatch := by
  have hC5 := claim_C5_amended encodeLen sigLen verifyLen "PK" "RSA" exA exP exI exDoc exD2
    exId rfl rfl rfl
  constructor
  · refine hC5.1 (headStmts exId) exMutA2 (finalize exId exD2).provenance
      (finalize exId exD2).pubinfo (mem_headStmts_type exId) (mem_headStmts_assertion exId)
      (mem_headStmts_prov exId) (mem_headStmts_info exId)
      (by decide) (by decide) (by decide) ?_ (by decide)
    rintro ⟨σ, hσ, hrel⟩
    have hcard := relabel_assertion_card hσ
    rw [hrel] at hcard
    have hc1 : exD2.assertion.card = 1 := by decide
    have hc2 : (unfinalize exId ⟨headStmts exId, exMutA2, (finalize exId exD2).provenance,
        (finalize exId exD2).pubinfo⟩).assertion.card = 2 := by decide
    omega
  · exact hC5.2.2.2 (by decide) (by decide) (by decide) (by decide) (by decide) (by decide)

theorem claim_C6_witness :
    validate encodeLen verifyLen ⟨"u", [("u" ++ "#head", (∅ : Finset Stmt)),
      ("u" ++ "#assertion", ∅), ("u" ++ "#pubinfo", ∅)]⟩ = .error .wrongPartCount ∧
    validate encodeLen verifyLen ⟨"u", [("a", (∅ : Finset Stmt)), ("b", ∅), ("c", ∅),
      ("d", ∅), ("e", ∅)]⟩ = .error .wrongPartCount ∧
    validate encodeLen verifyLen (toRaw "u" ⟨headStmts "u", ∅, exP, exI⟩) =
      .error .emptyPart :=
  ⟨(claim_C6 encodeLen verifyLen).1 "u" ∅ ∅ ∅,
    (claim_C6 encodeLen verifyLen).2.1 "u" _ rfl,
    (claim_C6 encodeLen verifyLen).2.2.1 "u" (headStmts "u") exP exI
      (mem_headStmts_type "u") (mem_headStmts_assertion "u")
      (mem_headStmts_prov "u") (mem_headStmts_info "u")⟩

theorem claim_C7_witness :
    signEntry encodeLen (fun _ => (none : Option Unit)) (fun _ => sigLen)
      none "PK" "RSA" exDoc = .error .keyMissing ∧
    signEntry encodeLen (fun _ => (none : Option Unit)) (fun _ => sigLen)
      (some "junk") "PK" "RSA" exDoc = .error .keyInvalid :=
  ⟨(claim_C7 encodeLen (fun _ => (none : Option Unit)) (fun _ => sigLen)
      none "PK" "RSA" exDoc).1 rfl,
    (claim_C7 encodeLen (fun _ => (none : Option Unit)) (fun _ => sigLen)
      (some "junk") "PK" "RSA" exDoc).2.1 "junk" rfl rfl⟩

theorem claim_C8_witness :
    signDoc encodeLen sigLen "PK" "RSA" (docOfLists w4h w4a2 w4p w4p) =
      signDoc encodeLen sigLen "PK" "RSA" (docOfLists w4h w4a w4p w4p) ∧
    sigLen (canonical (docOfLists w4h w4a2 w4p w4p)) =
      sigLen (canonical (docOfLists w4h w4a w4p w4p)) :=
  claim_C8 encodeLen sigLen "PK" "RSA" w4h w4a w4p w4p w4h w4a2 w4p w4p
    (by decide) (by decide) (by decide) (by decide)

theorem claim_C10_amended_witness :
    pySplit (signedFilepath "tests/my.trig".data) =
      (("tests/my.trig".data.take 5), "signed.".data ++ "my.trig".data) ∧
    signedFilepath "tests/my.trig".data ≠ "tests/my.trig".data := by
  have h := claim_C10_amended "tests/my.trig".data (by decide)
  have h1 : (pySplit "tests/my.trig".data).1 = "tests/my.trig".data.take 5 := by decide
  have h2 : (pySplit "tests/my.trig".data).2 = "my.trig".data := by decide
  rw [h1, h2] at h
  exact h

end Nanopub
